import Mathlib

set_option maxHeartbeats 1000000

/-!
Verification development for the entity-matching core of the
Australian-Company-Data-Pipeline repository
(`src/matching/entity_matcher.py`, `src/matching/ai_validator.py`).

The Python code is shallowly embedded: strings are `List Char` / `String`,
floats coming out of the similarity scorers are `ℚ`, the database is a list
of records, the thread pool is an explicit pending-job list driven by a
completion schedule, and the external LLM service / JSON decoder are oracle
parameters.  Regex character classes are modelled at ASCII fidelity
(`\w` = `[A-Za-z0-9_]`, `\s` = `[ \t\n\r\f\v]`), matching the behaviour of
the Python code on the ASCII data it processes.
-/

namespace ACDP

/-- ASCII model of the regex class `\w` (`[A-Za-z0-9_]`). -/
def isWordChar (c : Char) : Bool := c.isAlphanum || c = '_'

/-- ASCII model of the regex class `\s` (`[ \t\n\r\f\v]`). -/
def isSpaceCh (c : Char) : Bool :=
  c = ' ' || c = '\t' || c = '\n' || c = '\r' || c = '\x0c' || c = '\x0b'

/-- ASCII model of Python `str.lower` on a single character. -/
def lowerChar (c : Char) : Char :=
  if 'A' ≤ c ∧ c ≤ 'Z' then Char.ofNat (c.toNat + 32) else c

/-!
### The legal-suffix regex `_LEGAL_SUFFIX_RE`

`entity_matcher.py` compiles (with `re.IGNORECASE`)

    \b(pty\.?\s*ltd\.?|p\/l|ltd\.?|limited|inc\.?|incorporated|corp\.?|
       corporation|holdings?|group|trust|services?|solutions?|australia|
       aust\.?|nsw|vic|qld|wa|sa|tas|act|nt)\b

and `strong_normalize` replaces every non-overlapping, left-to-right match
with the empty string.  We embed the matcher directly: each alternative is a
function that consumes characters from the head of the list (with the same
backtracking order as the regex engine: a greedy `\.?` that retries without
the dot, a greedy `s?`, and `\s*` which is deterministic here because the
literal that follows it starts with a non-space character) and finally
checks the trailing word boundary `\b`.  Matchers return the last consumed
character (needed for `\b`) together with the remaining input.
-/

/-- Regex alternation on results: first success wins (explicit function to
keep elaboration cheap and reasoning uniform). -/
def orO {α : Type} : Option α → Option α → Option α
  | some x, _ => some x
  | none, b => b

/-- Consume the literal `es` case-insensitively (`re.IGNORECASE`), threading
the last consumed character. -/
def litc : List Char → Char → List Char → Option (Char × List Char)
  | [], last, cs => some (last, cs)
  | e :: es, _, c :: cs => if lowerChar c = e then litc es c cs else none
  | _ :: _, _, [] => none

/-- Word boundary `\b` between the character `a` and the rest of the input
(end of input counts as a non-word position). -/
def wordB (a : Char) (cs : List Char) : Bool :=
  match cs with
  | [] => isWordChar a
  | c :: _ => isWordChar a != isWordChar c

/-- Final `\b` check of the whole suffix-regex match. -/
def fin (p : Char × List Char) : Option (Char × List Char) :=
  if wordB p.1 p.2 then some p else none

/-- `\.?` with continuation `k`: greedily try to consume a dot, else retry
without it (the regex engine's backtracking order). -/
def optDot (k : Char × List Char → Option (Char × List Char))
    (p : Char × List Char) : Option (Char × List Char) :=
  orO
    (match p.2 with
     | c :: r => if c = '.' then k ('.', r) else none
     | [] => none)
    (k p)

/-- Trailing `\.?\b`. -/
def optDotFin (p : Char × List Char) : Option (Char × List Char) :=
  optDot fin p

/-- `\s*` before a literal starting with a non-space character: the greedy
maximal munch is the only consumption that can succeed. -/
def wsDrop (cs : List Char) : List Char := cs.dropWhile isSpaceCh

/-- Alternative `pty\.?\s*ltd\.?` (followed by the regex's closing `\b`). -/
def aPtyLtd (cs : List Char) : Option (Char × List Char) :=
  (litc ['p', 't', 'y'] 'x' cs).bind
    (optDot fun q => (litc ['l', 't', 'd'] q.1 (wsDrop q.2)).bind optDotFin)

/-- Alternative `p\/l` (followed by `\b`). -/
def aPL (cs : List Char) : Option (Char × List Char) :=
  (litc ['p', '/', 'l'] 'x' cs).bind fin

/-- A plain word alternative (followed by `\b`). -/
def aLit (w : List Char) (cs : List Char) : Option (Char × List Char) :=
  (litc w 'x' cs).bind fin

/-- A word alternative with trailing `\.?` (followed by `\b`). -/
def aLitDot (w : List Char) (cs : List Char) : Option (Char × List Char) :=
  (litc w 'x' cs).bind optDotFin

/-- A word alternative with trailing `s?` (followed by `\b`): greedy `s`
first, fall back to the bare word. -/
def aLitS (w : List Char) (cs : List Char) : Option (Char × List Char) :=
  (litc w 'x' cs).bind fun p =>
    orO ((litc ['s'] p.1 p.2).bind fin) (fin p)

/-- The alternatives of `_LEGAL_SUFFIX_RE`, in the source's order. -/
def altList : List (List Char → Option (Char × List Char)) :=
  [aPtyLtd, aPL,
   aLitDot "ltd".data, aLit "limited".data,
   aLitDot "inc".data, aLit "incorporated".data,
   aLitDot "corp".data, aLit "corporation".data,
   aLitS "holding".data, aLit "group".data, aLit "trust".data,
   aLitS "service".data, aLitS "solution".data,
   aLit "australia".data, aLitDot "aust".data,
   aLit "nsw".data, aLit "vic".data, aLit "qld".data,
   aLit "wa".data, aLit "sa".data, aLit "tas".data,
   aLit "act".data, aLit "nt".data]

/-- Try the alternatives of `_LEGAL_SUFFIX_RE` in order; first match wins. -/
def matchAlts (cs : List Char) : Option (Char × List Char) :=
  altList.foldr (fun f acc => orO (f cs) acc) none

/-- The scan of `_LEGAL_SUFFIX_RE.sub("", ·)`, structurally recursive on a
fuel bound: scan left to right; `prevW` records whether the previous
character of the *original* string (or, after a deletion, the last
character of the deleted span) is a word character.  A match can only
begin at a `\b`, i.e. where `prevW` is false (every alternative starts
with a word character, so positions with `prevW` true can never match, and
positions where the head is a non-word character fail inside `litc`).
Every step consumes at least one character, so any `fuel ≥ cs.length` gives
the untruncated scan (`subAllF_congr` below); the fuel-0-on-nonempty branch
is unreachable then. -/
def subAllF : ℕ → Bool → List Char → List Char
  | 0, _, _ => []
  | _ + 1, _, [] => []
  | fuel + 1, prevW, c :: cs' =>
    if prevW then c :: subAllF fuel (isWordChar c) cs'
    else
      match matchAlts (c :: cs') with
      | some (l, rest) => subAllF fuel (isWordChar l) rest
      | none => c :: subAllF fuel (isWordChar c) cs'

/-- `_LEGAL_SUFFIX_RE.sub("", ·)`: the scan with sufficient fuel. -/
def subAll (prevW : Bool) (cs : List Char) : List Char :=
  subAllF cs.length prevW cs

/-- `_PUNCT_RE.sub(" ", ·)`: each character matching `[^\w\s]` becomes a
space. -/
def punctMap (c : Char) : Char :=
  if !(isWordChar c || isSpaceCh c) then ' ' else c

/-- `_WHITESPACE_RE.sub(" ", ·)`: each maximal run of `\s+` becomes one
space.  `prevWS` records whether the previous character was whitespace (in
which case the current whitespace character belongs to an already-replaced
run). -/
def collapseAux (prevWS : Bool) : List Char → List Char
  | [] => []
  | c :: cs =>
    if isSpaceCh c then
      if prevWS then collapseAux true cs else ' ' :: collapseAux true cs
    else c :: collapseAux false cs

/-- Python `str.strip()` (ASCII whitespace). -/
def stripWS (cs : List Char) : List Char :=
  ((cs.dropWhile isSpaceCh).reverse.dropWhile isSpaceCh).reverse

/-- `strong_normalize` from `entity_matcher.py`: lower-case, delete legal
suffixes / state codes, punctuation to spaces, collapse whitespace, strip. -/
def strongNormalize (s : String) : String :=
  if s = "" then ""
  else
    String.mk (stripWS (collapseAux false
      (List.map punctMap (subAll false (s.data.map lowerChar)))))

/-!
### Similarity scorers

`entity_matcher.py` uses `rapidfuzz`'s `fuzz.token_set_ratio`,
`fuzz.partial_ratio` and `fuzz.token_sort_ratio`.  `rapidfuzz` is a
third-party dependency; following the spec's §9 contract for these scorers,
each is modelled as a normalized InDel (longest-common-subsequence based)
similarity, scaled to `[0,100]` as an exact rational, applied to the three
standard transformations of the inputs: token-set decomposition, best
same-length substring window, and sorted-token join.
-/

/-- Python `str.split()`: split on whitespace runs, discarding empties. -/
def splitWSAux (cur : List Char) : List Char → List (List Char)
  | [] => if cur = [] then [] else [cur]
  | c :: cs =>
    if isSpaceCh c then
      if cur = [] then splitWSAux [] cs else cur :: splitWSAux [] cs
    else splitWSAux (cur ++ [c]) cs

/-- Python `str.split()` on a character list. -/
def splitWS (l : List Char) : List (List Char) := splitWSAux [] l

/-- One diagonal sweep of the LCS dynamic program (`up :: prest` is the
previous row from the current column on; `diag`/`left` the other cells). -/
def lcsGo (ca : Char) : List Char → ℕ → List ℕ → ℕ → List ℕ
  | [], _, _, _ => []
  | bc :: bs, diag, up :: prest, left =>
    let v := if bc = ca then diag + 1 else max left up
    v :: lcsGo ca bs up prest v
  | _ :: _, _, [], _ => []

/-- Next row of the LCS table for character `ca`. -/
def lcsRow (ca : Char) (bs : List Char) (prev : List ℕ) : List ℕ :=
  match prev with
  | p0 :: prest => 0 :: lcsGo ca bs p0 prest 0
  | [] => []

/-- Length of a longest common subsequence (standard row-by-row DP). -/
def lcsLen (a b : List Char) : ℕ :=
  (a.foldl (fun row ca => lcsRow ca b row)
    (List.replicate (b.length + 1) 0)).getLastD 0

/-- Normalized InDel similarity × 100 (the base `ratio`): with
`dist = |a| + |b| - 2·lcs`, this is `100·(|a|+|b|-dist)/(|a|+|b|)`, i.e.
the exact rational `200·lcs / (|a|+|b|)`. -/
def indelSim (a b : List Char) : ℚ :=
  if a.length + b.length = 0 then 100
  else mkRat (200 * (lcsLen a b : ℤ)) (a.length + b.length)

/-- `fuzz.partial_ratio`: best base-similarity of the shorter string against
any same-length contiguous window of the longer one. -/
def substrSim (a b : List Char) : ℚ :=
  let s := if a.length ≤ b.length then a else b
  let l := if a.length ≤ b.length then b else a
  if s.length = 0 then (if l.length = 0 then 100 else 0)
  else
    ((List.range (l.length - s.length + 1)).map
      (fun i => indelSim s ((l.drop i).take s.length))).foldl max 0

/-- Join tokens with single spaces (Python `" ".join`). -/
def joinTok (ts : List (List Char)) : List Char := List.intercalate [' '] ts

/-- Python string `<=`: lexicographic by code point. -/
def lexLe : List Char → List Char → Bool
  | [], _ => true
  | _ :: _, [] => false
  | x :: xs, y :: ys => if x = y then lexLe xs ys else decide (x < y)

/-- Insert into a `lexLe`-sorted list. -/
def insertSorted (x : List Char) : List (List Char) → List (List Char)
  | [] => [x]
  | y :: ys => if lexLe x y then x :: y :: ys else y :: insertSorted x ys

/-- Python `sorted` for string tokens (insertion sort by `lexLe`). -/
def sortTok (ts : List (List Char)) : List (List Char) :=
  ts.foldr insertSorted []

/-- `fuzz.token_sort_ratio`: base similarity of the sorted-token joins. -/
def tokenSortSim (a b : List Char) : ℚ :=
  indelSim (joinTok (sortTok (splitWS a))) (joinTok (sortTok (splitWS b)))

/-- Sorted set of tokens (Python `sorted(set(s.split()))`). -/
def tokenSet (a : List Char) : List (List Char) :=
  sortTok (splitWS a).dedup

/-- `(t0 + " " + t1).strip()` on joined token groups. -/
def joinCombine (x y : List (List Char)) : List Char :=
  stripWS (joinTok x ++ [' '] ++ joinTok y)

/-- `fuzz.token_set_ratio`: decompose both token sets into intersection and
differences and take the best base similarity among the three recombined
strings (the standard token-set construction). -/
def tokenSetSim (a b : List Char) : ℚ :=
  let ta := tokenSet a
  let tb := tokenSet b
  let sect := ta.filter (· ∈ tb)
  let dab := ta.filter (· ∉ tb)
  let dba := tb.filter (· ∉ ta)
  let t0 := joinCombine sect []
  let t1 := joinCombine sect dab
  let t2 := joinCombine sect dba
  max (indelSim t0 t1) (max (indelSim t0 t2) (indelSim t1 t2))

/-- `composite_score` from `entity_matcher.py`: best of the three scorers. -/
def compositeScore (normA normB : String) : ℚ :=
  max (tokenSetSim normA.data normB.data)
    (max (substrSim normA.data normB.data) (tokenSortSim normA.data normB.data))

/-!
### Thresholds and decision engine
-/

def SCORE_HIGH_CONF : ℚ := 90
def SCORE_MED_CONF : ℚ := 82
def SCORE_AI_MIN : ℚ := 78

/-- The four outcomes of the spec's `MatchDecision`. -/
inductive MatchDecision
  | reject
  | escalate
  | accept_medium
  | accept_high
  deriving DecidableEq, Repr

/-- The decision tree of `EntityMatcher.fuzzy_match` (evaluated high to
low): `score > 90`, `elif score >= 82`, `elif score >= 78`, `else`. -/
def decideScore (score : ℚ) : MatchDecision :=
  if score > SCORE_HIGH_CONF then .accept_high
  else if score ≥ SCORE_MED_CONF then .accept_medium
  else if score ≥ SCORE_AI_MIN then .escalate
  else .reject

/-!
### Data model
-/

/-- A `staging.commoncrawl_clean` row as loaded by `load_data`. -/
structure CcRow where
  website_url : String
  company_name : String
  normalized_name : String
  deriving DecidableEq, Repr, Inhabited

/-- A `staging.abr_clean` row as loaded by `load_data` (`state` and
`postcode` may be SQL NULL). -/
structure AbrRowIn where
  abn : String
  entity_name : String
  normalized_name : String
  entity_type : Option String
  entity_status : Option String
  state : Option String
  postcode : Option String
  deriving DecidableEq, Repr, Inhabited

/-- An ABR row held by the blocking index, carrying the `strong_norm`
column added in `build_indexes`. -/
structure AbrRow extends AbrRowIn where
  strong_norm : String
  deriving DecidableEq, Repr, Inhabited

/-- A row of `core.company_master` as inserted by `_INSERT_MASTER`. -/
structure MatchRec where
  abn : String
  website_url : String
  company_name : String
  industry : Option String
  entity_type : Option String
  entity_status : Option String
  state : Option String
  postcode : Option String
  match_method : String
  match_confidence : ℚ
  deriving DecidableEq, Repr

/-- Python `round` (banker's rounding, round-half-to-even) to `d` decimal
digits, on exact rationals: scale by `10^d`, round to the nearest integer
(ties to even, `f = ⌊x⌋` computed by floor division), scale back. -/
def pyRound (d : ℕ) (q : ℚ) : ℚ :=
  let x : ℚ := q * mkRat (10 ^ d : ℤ) 1
  let f : ℤ := x.num.fdiv x.den
  let r : ℚ := x - mkRat f 1
  let n : ℤ :=
    if r < mkRat 1 2 then f
    else if mkRat 1 2 < r then f + 1
    else if f % 2 = 0 then f else f + 1
  mkRat n (10 ^ d)

/-- Python `str.strip()` on `String`. -/
def pyStrip (s : String) : String := String.mk (stripWS s.data)

/-- Python `str(x or "")` for an optional DB value. -/
def orEmpty (o : Option String) : String := o.getD ""

/-- `re.fullmatch(r"\d{4}", s)`. -/
def is4Digits (s : String) : Bool := s.length = 4 && s.data.all (·.isDigit)

/-- `_build_record` from `fuzzy_match`: truncate to column limits, validate
the postcode, round the confidence. -/
def buildRecord (cc : CcRow) (abr : AbrRow) (method : String)
    (confidence : ℚ) : MatchRec :=
  let rawState := pyStrip (orEmpty abr.state)
  let rawPostcode := pyStrip (orEmpty abr.postcode)
  let rawMethod := pyStrip method
  { abn := abr.abn
    website_url := cc.website_url
    company_name := abr.entity_name
    industry := none
    entity_type := abr.entity_type
    entity_status := abr.entity_status
    state := if rawState ≠ "" then some (String.mk (rawState.data.take 3)) else none
    postcode := if is4Digits rawPostcode then some rawPostcode else none
    match_method := if rawMethod ≠ "" then String.mk (rawMethod.data.take 20) else method
    match_confidence := pyRound 2 confidence }

/-!
### Blocking index and candidate retrieval
-/

/-- `sn[:3]`. -/
def take3 (sn : List Char) : List Char := sn.take 3

/-- `sn.split()[0] if sn.split() else sn`. -/
def firstTok (sn : List Char) : List Char :=
  match splitWS sn with
  | [] => sn
  | t :: _ => t

/-- Append `v` to the bucket of key `k` of a defaultdict-of-lists. -/
def updateIdx (f : List Char → List AbrRow) (k : List Char) (v : AbrRow) :
    List Char → List AbrRow :=
  fun k' => if k' = k then f k' ++ [v] else f k'

/-- One row of the `build_indexes` loop: compute `strong_norm`, skip the
row if it is empty, else append it to both buckets under its keys. -/
def idxStep (acc : (List Char → List AbrRow) × (List Char → List AbrRow))
    (r : AbrRowIn) : (List Char → List AbrRow) × (List Char → List AbrRow) :=
  if (strongNormalize r.normalized_name).data = [] then acc
  else
    (updateIdx acc.1 (take3 ((strongNormalize r.normalized_name).data))
      ⟨r, String.mk ((strongNormalize r.normalized_name).data)⟩,
     updateIdx acc.2 (firstTok ((strongNormalize r.normalized_name).data))
      ⟨r, String.mk ((strongNormalize r.normalized_name).data)⟩)

/-- `build_indexes`: compute `strong_norm` per reference row, skip rows
whose `strong_norm` is empty, and key by 3-char prefix and by first token.
(The two `_names` projections of the source are recovered from the stored
rows' `strong_norm` fields, as in `_get_candidates`.) -/
def buildIndexes (rows : List AbrRowIn) :
    (List Char → List AbrRow) × (List Char → List AbrRow) :=
  rows.foldl idxStep (fun _ => [], fun _ => [])

/-- Deduplicate by `abn`, first occurrence wins (`seen_abns`). -/
def dedupByAbn (seen : List String) : List AbrRow → List AbrRow
  | [] => []
  | r :: rs =>
    if r.abn ∈ seen then dedupByAbn seen rs
    else r :: dedupByAbn (r.abn :: seen) rs

/-- `_get_candidates`: merge the two buckets for the query's keys,
deduplicating by `abn`; returns the rows and their `strong_norm`s. -/
def getCandidates (ccNorm : List Char)
    (byPref3 byTok1 : List Char → List AbrRow) :
    List AbrRow × List (List Char) :=
  let rows := dedupByAbn [] (byPref3 (take3 ccNorm) ++ byTok1 (firstTok ccNorm))
  (rows, rows.map (fun r => r.strong_norm.data))

/-- `rapidfuzz.process.extractOne` with the token-set scorer: best score at
least `cutoff`, first index wins ties; returns `(score, index)`. -/
def extractOne (q : List Char) (choices : List (List Char)) (cutoff : ℚ) :
    Option (ℚ × ℕ) :=
  go 0 none choices
where
  go (i : ℕ) (best : Option (ℚ × ℕ)) : List (List Char) → Option (ℚ × ℕ)
    | [] => best
    | c :: cs =>
      let s := tokenSetSim q c
      let best' :=
        match best with
        | none => if s ≥ cutoff then some (s, i) else none
        | some (bs, bi) => if s > bs then some (s, i) else some (bs, bi)
      go (i + 1) best' cs

/-!
### The matching pipeline

`fuzzy_match` is embedded as a fold over the query rows.  The thread pool
is modelled by an explicit pending-job list: `oracle` gives the outcome of
each `_run_ai_job` (a job that raises — e.g. a failed log write — is
`JobOutcome.err`, mirroring the `except` branch of `_drain_futures`), and
`sched t id` says whether job `id` is already completed (`Future.done()`)
when a drain runs after processing `t` query rows.  `peak` is a ghost field
recording the largest in-flight job count ever reached (sampled right
after each submission, where within-loop in-flight is maximal).
-/

/-- A pending `ValidationJob`: `pending_futures[fut] = (cc_row, abr_row,
score)`, with a submission index for the completion schedule. -/
structure PendingJob where
  id : ℕ
  cc : CcRow
  abr : AbrRow
  score : ℚ
  deriving DecidableEq, Repr

/-- Result of `_run_ai_job` as observed by `fut.result()`: a normal return
`(approved, confidence)`, or a raised exception. -/
inductive JobOutcome
  | err
  | done (approved : Bool) (confidence : ℚ)
  deriving DecidableEq, Repr

/-- The mutable state of the `fuzzy_match` loop. -/
structure RunState where
  total_proc : ℕ := 0
  total_written : ℕ := 0
  total_ai : ℕ := 0
  total_rejected : ℕ := 0
  total_high : ℕ := 0
  total_med : ℕ := 0
  pending : List PendingJob := []
  master : List MatchRec := []
  peak : ℕ := 0
  deriving Repr

/-- Matches written when one completed future is collected: on a normal
return, write an `ai_validated` record iff approved (confidence × 100); on
an exception, print and continue (no write). -/
def resolveJob (oracle : CcRow → AbrRow → ℚ → JobOutcome) (j : PendingJob) :
    List MatchRec :=
  match oracle j.cc j.abr j.score with
  | .err => []
  | .done approved conf =>
    if approved then [buildRecord j.cc j.abr "ai_validated" (conf * 100)] else []

/-- `_drain_futures`: collect exactly the currently-completed futures
(non-blocking poll), in insertion order. -/
def drainCompleted (sched : ℕ → ℕ → Bool)
    (oracle : CcRow → AbrRow → ℚ → JobOutcome) (t : ℕ) (st : RunState) :
    RunState :=
  let done := st.pending.filter (fun j => sched t j.id)
  let rest := st.pending.filter (fun j => !sched t j.id)
  let newMatches := done.flatMap (resolveJob oracle)
  { st with
    pending := rest
    master := st.master ++ newMatches
    total_written := st.total_written + newMatches.length }

/-- The final `as_completed` drain: waits for every remaining job. -/
def finalDrain (oracle : CcRow → AbrRow → ℚ → JobOutcome) (st : RunState) :
    RunState :=
  let newMatches := st.pending.flatMap (resolveJob oracle)
  { st with
    pending := []
    master := st.master ++ newMatches
    total_written := st.total_written + newMatches.length }

/-- The decision tree of `fuzzy_match` applied to the rescored best
candidate: the branch taken for each `MatchDecision`, exactly as in the
source (the accept branches write immediately, the escalate branch submits
a job, the reject branch counts). -/
def decideAct (st : RunState) (row : CcRow) (abr : AbrRow) (score : ℚ) :
    RunState :=
  match decideScore score with
  | .accept_high =>
    { st with
      master := st.master ++ [buildRecord row abr "fuzzy_high_conf" score]
      total_written := st.total_written + 1
      total_high := st.total_high + 1 }
  | .accept_medium =>
    { st with
      master := st.master ++ [buildRecord row abr "fuzzy_med_conf" score]
      total_written := st.total_written + 1
      total_med := st.total_med + 1 }
  | .escalate =>
    { st with
      total_ai := st.total_ai + 1
      pending := st.pending ++ [⟨st.total_ai, row, abr, score⟩]
      peak := max st.peak (st.pending.length + 1) }
  | .reject => { st with total_rejected := st.total_rejected + 1 }

/-- One iteration of the `for cc_row in cc_df` loop of `fuzzy_match`. -/
def step (K : ℕ) (sched : ℕ → ℕ → Bool)
    (oracle : CcRow → AbrRow → ℚ → JobOutcome)
    (idx : (List Char → List AbrRow) × (List Char → List AbrRow))
    (st : RunState) (row : CcRow) : RunState :=
  let st := { st with total_proc := st.total_proc + 1 }
  let ccNorm := (strongNormalize row.normalized_name).data
  if ccNorm = [] then st
  else
    let cands := getCandidates ccNorm idx.1 idx.2
    if cands.1 = [] then st
    else
      match extractOne ccNorm cands.2 (SCORE_AI_MIN - 1) with
      | none => { st with total_rejected := st.total_rejected + 1 }
      | some (_, i) =>
        let st' := decideAct st row (cands.1.getD i default)
          (compositeScore (String.mk ccNorm)
            (cands.1.getD i default).strong_norm)
        if 2 * K ≤ st'.pending.length then
          drainCompleted sched oracle st'.total_proc st'
        else st'

/-- The query-row loop of `fuzzy_match` (before the final drain). -/
def runLoop (K : ℕ) (sched : ℕ → ℕ → Bool)
    (oracle : CcRow → AbrRow → ℚ → JobOutcome)
    (idx : (List Char → List AbrRow) × (List Char → List AbrRow))
    (ccRows : List CcRow) : RunState :=
  ccRows.foldl (step K sched oracle idx) {}

/-- The whole of `fuzzy_match`: build indexes, loop, final drain. -/
def runMatcher (K : ℕ) (sched : ℕ → ℕ → Bool)
    (oracle : CcRow → AbrRow → ℚ → JobOutcome)
    (abrRows : List AbrRowIn) (ccRows : List CcRow) : RunState :=
  finalDrain oracle (runLoop K sched oracle (buildIndexes abrRows) ccRows)

/-!
### Per-row classification (for the accounting theorems)
-/

/-- The seven disjoint ways one query row can be handled by `fuzzy_match`. -/
inductive RowClass
  | skipEmpty
  | skipNoCand
  | preReject
  | high
  | med
  | esc
  | lowReject
  deriving DecidableEq, Repr

/-- The `RowClass` a decided (post-pre-filter) row falls into. -/
def classOfDecision : MatchDecision → RowClass
  | .accept_high => .high
  | .accept_medium => .med
  | .escalate => .esc
  | .reject => .lowReject

/-- Classify a query row exactly as `step` treats it. -/
def classifyRow (idx : (List Char → List AbrRow) × (List Char → List AbrRow))
    (row : CcRow) : RowClass :=
  let ccNorm := (strongNormalize row.normalized_name).data
  if ccNorm = [] then .skipEmpty
  else
    let cands := getCandidates ccNorm idx.1 idx.2
    if cands.1 = [] then .skipNoCand
    else
      match extractOne ccNorm cands.2 (SCORE_AI_MIN - 1) with
      | none => .preReject
      | some (_, i) =>
        classOfDecision (decideScore (compositeScore (String.mk ccNorm)
          (cands.1.getD i default).strong_norm))

/-- The `ValidationJob` an escalated row submits. -/
def jobContent (idx : (List Char → List AbrRow) × (List Char → List AbrRow))
    (row : CcRow) : CcRow × AbrRow × ℚ :=
  let ccNorm := (strongNormalize row.normalized_name).data
  let cands := getCandidates ccNorm idx.1 idx.2
  let i := (extractOne ccNorm cands.2 (SCORE_AI_MIN - 1)).getD (0, 0)
  let abr := cands.1.getD i.2 default
  (row, abr, compositeScore (String.mk ccNorm) abr.strong_norm)

/-- Whether an escalated row's job resolves approved. -/
def escApproved (oracle : CcRow → AbrRow → ℚ → JobOutcome)
    (idx : (List Char → List AbrRow) × (List Char → List AbrRow))
    (row : CcRow) : Bool :=
  match oracle (jobContent idx row).1 (jobContent idx row).2.1
      (jobContent idx row).2.2 with
  | .err => false
  | .done approved _ => approved

/-- Whether a pending job will resolve approved when collected. -/
def jobApproved (oracle : CcRow → AbrRow → ℚ → JobOutcome)
    (j : PendingJob) : Bool :=
  match oracle j.cc j.abr j.score with
  | .err => false
  | .done approved _ => approved

/-!
### Persistence gateway (`_INSERT_MASTER`)

`_INSERT_MASTER` is `INSERT ... SELECT ... WHERE NOT EXISTS (SELECT 1 FROM
core.company_master WHERE abn = :abn AND website_url = :website_url)`: a
conditional insert keyed on (reference identifier, query source locator),
modelled over the table as a list of rows.
-/

/-- Whether a stored row shares the (abn, website_url) key of `rec`. -/
def sameKey (rec : MatchRec) (r : MatchRec) : Bool :=
  r.abn = rec.abn && r.website_url = rec.website_url

/-- `_write_match` / `insertMatchIfAbsent`: insert unless a row with the
same (abn, website_url) pair exists. -/
def insertMatchIfAbsent (db : List MatchRec) (rec : MatchRec) : List MatchRec :=
  if db.any (sameKey rec) then db else db ++ [rec]

/-!
### External validator client (`ai_validator.py`)

The HTTP transport (`requests`) and the JSON decoder (`json.loads`) are
external collaborators: the transport outcome is an input, and `loads` is
an oracle parameter.  A `JsonView` is what `validate`'s coercions consume
from a decoded value: `bool(parsed.get("same_entity", False))` (a total
truthiness test), `float(parsed.get("confidence", 0.0))` — which can itself
raise, as can `.get` on a decoded non-dict, both modelled by
`confidenceVal = none` — and `str(parsed.get("reason", ""))` (total).
-/

/-- Outcome of the `session.post` call (any exception — timeout, transport
error, non-2xx via `raise_for_status` — is `failure` with its message). -/
inductive TransportOutcome
  | failure (excMsg : String)
  | success (responseText : String)

/-- View of a decoded JSON value as consumed by `validate`'s coercions. -/
structure JsonView where
  sameEntityTruthy : Bool
  confidenceVal : Option ℚ
  reasonStr : String

/-- The verdict dictionary `parsed_clean`. -/
structure ParsedVerdict where
  same_entity : Bool
  confidence : ℚ
  reason : String
  deriving DecidableEq, Repr

/-- Return value of `AIValidator.validate`. -/
structure AiResult where
  prompt : String
  raw_response : String
  parsed : ParsedVerdict
  deriving DecidableEq, Repr

/-- `_MD_FENCE_RE.sub("", ·)`: delete each occurrence of three backticks
optionally followed (greedily, case-insensitively) by `json`. -/
def stripFencesF : ℕ → List Char → List Char
  | 0, _ => []
  | fuel + 1, l =>
    match l with
    | '`' :: '`' :: '`' :: a :: b :: c :: d :: rest2 =>
      if [a, b, c, d].map lowerChar = "json".data then stripFencesF fuel rest2
      else stripFencesF fuel (a :: b :: c :: d :: rest2)
    | '`' :: '`' :: '`' :: rest => stripFencesF fuel rest
    | c :: cs => c :: stripFencesF fuel cs
    | [] => []

/-- `_MD_FENCE_RE.sub("", ·)` with sufficient fuel (each step consumes at
least one character, so `l.length` is enough). -/
def stripFences (l : List Char) : List Char := stripFencesF l.length l

/-- Body of the first `\{[^{}]*\}` span: collect until `}` (success) or
`{` / end of input (failure). -/
def grabSpan (acc : List Char) : List Char → Option (List Char)
  | [] => none
  | c :: cs =>
    if c = '}' then some acc.reverse
    else if c = '{' then none
    else grabSpan (c :: acc) cs

/-- First match of `_JSON_BLOCK_RE = \{[^{}]*\}` (leftmost `{` whose next
brace is a `}`; on failure the scan resumes at the following `{`, exactly
as the regex engine's position-by-position retry does). -/
def findSpan : List Char → Option (List Char)
  | [] => none
  | c :: cs =>
    if c = '{' then
      match grabSpan [] cs with
      | some body => some ('{' :: (body ++ ['}']))
      | none => findSpan cs
    else findSpan cs

/-- `_extract_json`: strip fences and whitespace, try a whole-text decode,
then decode the first brace span; error carries the exception message
(`ValueError` text for the no-span case, decoder message otherwise). -/
def extractJson (loads : String → Except String JsonView) (raw : String) :
    Except String JsonView :=
  let cleaned := pyStrip (String.mk (stripFences raw.data))
  match loads cleaned with
  | .ok v => .ok v
  | .error _ =>
    match findSpan cleaned.data with
    | some span => loads (String.mk span)
    | none => .error ("No valid JSON in LLM response: " ++ cleaned)

/-- `_build_prompt`. -/
def buildPrompt (nameA nameB : String) : String :=
  "Same Australian business entity?\n" ++
  "A: \"" ++ nameA ++ "\"\n" ++
  "B: \"" ++ nameB ++ "\"\n" ++
  "Ignore: Pty Ltd / Ltd / Limited / Holdings / Group / state codes / punctuation.\n" ++
  "Be conservative.\n" ++
  "Reply ONLY with JSON: " ++
  "\x7b\"same_entity\":true/false,\"confidence\":0.0-1.0,\"reason\":\"brief\"\x7d"

/-- `AIValidator.validate`: total on every transport outcome and every
response text.  The confidence of a successfully parsed verdict is clamped
to `[0,1]` and rounded to 4 digits; both failure paths return non-approved
verdicts with confidence `0.0`. -/
def validate (loads : String → Except String JsonView)
    (tr : TransportOutcome) (nameA nameB : String) : AiResult :=
  let prompt := buildPrompt nameA nameB
  match tr with
  | .failure excMsg =>
    { prompt := prompt
      raw_response := excMsg
      parsed := { same_entity := false, confidence := 0, reason := "LLM request failed" } }
  | .success text =>
    let rawOutput := pyStrip text
    match extractJson loads rawOutput with
    | .ok v =>
      match v.confidenceVal with
      | some q =>
        { prompt := prompt
          raw_response := rawOutput
          parsed :=
            { same_entity := v.sameEntityTruthy
              confidence := pyRound 4 (max 0 (min q 1))
              reason := v.reasonStr } }
      | none =>
        { prompt := prompt
          raw_response := rawOutput
          parsed :=
            { same_entity := false, confidence := 0
              reason := "Parsing failed: could not convert value" } }
    | .error e =>
      { prompt := prompt
        raw_response := rawOutput
        parsed := { same_entity := false, confidence := 0, reason := "Parsing failed: " ++ e } }

/-- A row of `core.ai_match_log` as inserted by `_INSERT_AI_LOG` (the
`llm_response` JSON document is kept as its two components). -/
structure LogEntry where
  company_a : String
  company_b : String
  fuzzy_score : ℚ
  prompt : String
  llm_response_raw : String
  llm_response_parsed : ParsedVerdict
  decision : Bool
  deriving DecidableEq, Repr

/-- `_run_ai_job`: validate, write exactly one log row, return
`(approved, confidence)`.  The written log rows are returned explicitly. -/
def runAiJob (loads : String → Except String JsonView)
    (tr : TransportOutcome) (ccName abrName : String) (fuzzyScore : ℚ) :
    List LogEntry × Bool × ℚ :=
  let ai := validate loads tr ccName abrName
  let approved := ai.parsed.same_entity
  ([{ company_a := ccName
      company_b := abrName
      fuzzy_score := fuzzyScore
      prompt := ai.prompt
      llm_response_raw := ai.raw_response
      llm_response_parsed := ai.parsed
      decision := approved }],
   approved, ai.parsed.confidence)

/-- What `_drain_futures` writes for one successfully collected job. -/
def collectJob (cc : CcRow) (abr : AbrRow) (res : List LogEntry × Bool × ℚ) :
    List MatchRec :=
  if res.2.1 then [buildRecord cc abr "ai_validated" (res.2.2 * 100)] else []

/-!
### Concrete fixtures

Small concrete inputs used to evaluate the embedded pipeline at decision
boundaries and in counterexamples.
-/

/-- A reference row with a given abn and normalized name. -/
def abrFix (abn nn : String) : AbrRowIn :=
  { abn := abn
    entity_name := "Reference Entity"
    normalized_name := nn
    entity_type := none
    entity_status := none
    state := none
    postcode := none }

/-- A query row with a given normalized name. -/
def ccFix (nn : String) : CcRow :=
  { website_url := "https://example.com"
    company_name := "Query Co"
    normalized_name := nn }

/-- A completion schedule under which no future is ever observed done
during the loop (all work resolves only in the final drain). -/
def schedNever : ℕ → ℕ → Bool := fun _ _ => false

/-- A completion schedule under which every submitted job has completed by
the time any drain polls it. -/
def schedAlways : ℕ → ℕ → Bool := fun _ _ => true

/-- An external-validation oracle that always approves with confidence 0.9. -/
def oracleYes : CcRow → AbrRow → ℚ → JobOutcome :=
  fun _ _ _ => .done true (mkRat 9 10)

/-- An external-validation oracle that always rejects. -/
def oracleNo : CcRow → AbrRow → ℚ → JobOutcome :=
  fun _ _ _ => .done false (mkRat 1 10)

/-- An external-validation oracle whose jobs always raise. -/
def oracleErr : CcRow → AbrRow → ℚ → JobOutcome := fun _ _ _ => .err

/-- A stored match row used in the persistence counterexample. -/
def recFix : MatchRec :=
  { abn := "A1"
    website_url := "https://example.com"
    company_name := "Reference Entity"
    industry := none
    entity_type := none
    entity_status := none
    state := none
    postcode := none
    match_method := "fuzzy_high_conf"
    match_confidence := 100 }

/-!
## Maximal word runs

`wordsOf` lists the maximal runs of `\w` characters of a string.  The scan
of `_LEGAL_SUFFIX_RE` can delete a whole such run (plus, for `pty ltd`, the
following one), and the idempotence argument tracks which runs can survive
the first pass.
-/

def wordsOf : List Char → List (List Char)
  | [] => []
  | c :: cs =>
    if isWordChar c then
      (c :: cs.takeWhile isWordChar) :: wordsOf (cs.dropWhile isWordChar)
    else wordsOf cs
termination_by l => l.length
decreasing_by
  · simp only [List.length_cons]
    exact Nat.lt_succ_of_le (List.dropWhile_suffix isWordChar).length_le
  · simp

/-!
## The vocabulary deleted by `_LEGAL_SUFFIX_RE`

On dot-free, slash-free text (which is what the pipeline produces after
punctuation replacement), a whole maximal word run is matched by the regex
exactly when it is one of these 25 words (`ptyltd` coming from
`pty\.?\s*ltd\.?` with zero whitespace), plus the two-run form
`pty … ltd` which is handled separately.
-/

def Vlist : List (List Char) :=
  ["ptyltd".data, "ltd".data, "limited".data, "inc".data,
   "incorporated".data, "corp".data, "corporation".data, "holding".data,
   "holdings".data, "group".data, "trust".data, "service".data,
   "services".data, "solution".data, "solutions".data, "australia".data,
   "aust".data, "nsw".data, "vic".data, "qld".data, "wa".data, "sa".data,
   "tas".data, "act".data, "nt".data]

def inV (w : List Char) : Bool := Vlist.contains w

/-- The word runs relevant at a scan state: when the previous character was
a word character the current run was already being copied verbatim, so only
the runs after it are constrained. -/
def safeWords (prevW : Bool) (l : List Char) : List (List Char) :=
  if prevW then wordsOf (l.dropWhile isWordChar) else wordsOf l

def okSp : Bool → List Char → Bool
  | _, [] => true
  | b, c :: r =>
    if isSpaceCh c then (!b && decide (c = ' ')) && okSp true r
    else okSp false r

/-!
## Infrastructure lemmas

Basic properties of the suffix-regex matcher: every successful match
consumes at least one character, and the fuel-based scan is independent of
the fuel bound once it covers the input, giving the natural recursion
equation `subAll_eq`.
-/

theorem litc_length {es : List Char} {d : Char} {cs : List Char}
    {p : Char × List Char} (h : litc es d cs = some p) :
    p.2.length + es.length = cs.length := by
  induction es generalizing d cs with
  | nil => simp [litc] at h; simp [← h]
  | cons e es ih =>
    cases cs with
    | nil => simp [litc] at h
    | cons c cs =>
      simp only [litc] at h
      split at h
      · have := ih h
        simp only [List.length_cons]
        omega
      · exact absurd h (by simp)

theorem fin_eq {p q : Char × List Char} (h : fin p = some q) : q = p := by
  unfold fin at h
  split at h
  · exact (Option.some_inj.mp h).symm
  · exact absurd h (by simp)

theorem orO_eq_some_cases {α : Type} {a b : Option α} {x : α}
    (h : orO a b = some x) : a = some x ∨ b = some x := by
  cases a with
  | none => right; simpa [orO] using h
  | some y => left; simpa [orO] using h

theorem optDot_eq_some_cases
    {k : Char × List Char → Option (Char × List Char)}
    {p q : Char × List Char} (h : optDot k p = some q) :
    (∃ r, p.2 = '.' :: r ∧ k ('.', r) = some q) ∨ k p = some q := by
  unfold optDot at h
  rcases orO_eq_some_cases h with h1 | h1
  · left
    revert h1
    match p with
    | (a, []) => intro h1; simp at h1
    | (a, c :: r) =>
      intro h1
      simp only at h1
      split at h1
      · next hc => exact ⟨r, by rw [hc], h1⟩
      · exact absurd h1 (by simp)
  · right; exact h1

theorem optDotFin_length {p q : Char × List Char} (h : optDotFin p = some q) :
    q.2.length ≤ p.2.length := by
  unfold optDotFin at h
  rcases optDot_eq_some_cases h with ⟨r, hr, h1⟩ | h1
  · have := fin_eq h1
    subst this
    rw [hr]
    simp
  · have := fin_eq h1; subst this; exact le_refl _

theorem wsDrop_length (cs : List Char) : (wsDrop cs).length ≤ cs.length := by
  unfold wsDrop
  induction cs with
  | nil => simp
  | cons c cs ih =>
    by_cases h : isSpaceCh c
    · simp only [List.dropWhile_cons, h, if_true, List.length_cons]; omega
    · simp [List.dropWhile_cons, h]

theorem aLit_length {w cs : List Char} {p : Char × List Char}
    (hw : w ≠ []) (h : aLit w cs = some p) : p.2.length < cs.length := by
  unfold aLit at h
  rcases Option.bind_eq_some.mp h with ⟨q, hq, hfin⟩
  have := fin_eq hfin; subst this
  have := litc_length hq
  have : w.length ≠ 0 := by simpa using hw
  omega

theorem aLitDot_length {w cs : List Char} {p : Char × List Char}
    (hw : w ≠ []) (h : aLitDot w cs = some p) : p.2.length < cs.length := by
  unfold aLitDot at h
  rcases Option.bind_eq_some.mp h with ⟨q, hq, hdot⟩
  have h1 := litc_length hq
  have h2 := optDotFin_length hdot
  have : w.length ≠ 0 := by simpa using hw
  omega

theorem aLitS_length {w cs : List Char} {p : Char × List Char}
    (hw : w ≠ []) (h : aLitS w cs = some p) : p.2.length < cs.length := by
  unfold aLitS at h
  rcases Option.bind_eq_some.mp h with ⟨q, hq, hrest⟩
  have h1 := litc_length hq
  have : w.length ≠ 0 := by simpa using hw
  rcases orO_eq_some_cases hrest with h2 | h2
  · rcases Option.bind_eq_some.mp h2 with ⟨r, hr, hfin⟩
    have := fin_eq hfin; subst this
    have := litc_length hr
    simp at this
    omega
  · have := fin_eq h2; subst this; omega

theorem aPL_length {cs : List Char} {p : Char × List Char}
    (h : aPL cs = some p) : p.2.length < cs.length := by
  unfold aPL at h
  rcases Option.bind_eq_some.mp h with ⟨q, hq, hfin⟩
  have := fin_eq hfin; subst this
  have := litc_length hq
  simp at this
  omega

theorem aPtyLtd_length {cs : List Char} {p : Char × List Char}
    (h : aPtyLtd cs = some p) : p.2.length < cs.length := by
  unfold aPtyLtd at h
  rcases Option.bind_eq_some.mp h with ⟨q, hq, hrest⟩
  have h1 := litc_length hq
  simp only [List.length_cons] at h1
  have hcont : ∀ (r : Char × List Char),
      ((litc ['l', 't', 'd'] r.1 (wsDrop r.2)).bind optDotFin) = some p →
      p.2.length ≤ r.2.length := by
    intro r hr
    rcases Option.bind_eq_some.mp hr with ⟨s, hs, hdot⟩
    have h2 := litc_length hs
    have h3 := optDotFin_length hdot
    have h4 := wsDrop_length r.2
    simp at h2
    omega
  rcases optDot_eq_some_cases hrest with ⟨r, hr, h2⟩ | h2
  · have := hcont ('.', r) h2
    simp at this
    rw [hr] at h1
    simp at h1
    omega
  · have := hcont q h2
    omega

theorem foldr_orO_eq_some {α : Type}
    {fs : List (List Char → Option α)} {cs : List Char} {p : α}
    (h : fs.foldr (fun f acc => orO (f cs) acc) none = some p) :
    ∃ f ∈ fs, f cs = some p := by
  induction fs with
  | nil => simp at h
  | cons f fs ih =>
    rcases orO_eq_some_cases h with h1 | h1
    · exact ⟨f, by simp, h1⟩
    · rcases ih h1 with ⟨g, hg, hgp⟩
      exact ⟨g, by simp [hg], hgp⟩

theorem matchAlts_length {cs : List Char} {p : Char × List Char}
    (h : matchAlts cs = some p) : p.2.length < cs.length := by
  unfold matchAlts at h
  rcases foldr_orO_eq_some h with ⟨f, hf, hp⟩
  fin_cases hf
  · exact aPtyLtd_length hp
  · exact aPL_length hp
  all_goals
    first
    | exact aLitDot_length (by decide) hp
    | exact aLitS_length (by decide) hp
    | exact aLit_length (by decide) hp

theorem subAllF_nil (f : ℕ) (b : Bool) : subAllF f b [] = [] := by
  cases f <;> rfl

/-- The fuel bound is irrelevant once it covers the input length. -/
theorem subAllF_congr :
    ∀ (f1 f2 : ℕ) (b : Bool) (cs : List Char), cs.length ≤ f1 →
      cs.length ≤ f2 → subAllF f1 b cs = subAllF f2 b cs := by
  intro f1
  induction f1 using Nat.strong_induction_on with
  | _ f1 ih =>
    intro f2 b cs h1 h2
    match f1, f2, cs with
    | g1, g2, [] => rw [subAllF_nil, subAllF_nil]
    | 0, _, c :: cs' => simp at h1
    | _ + 1, 0, c :: cs' => simp at h2
    | g1 + 1, g2 + 1, c :: cs' =>
      simp only [List.length_cons] at h1 h2
      simp only [subAllF]
      by_cases hb : b
      · simp only [hb, if_true]
        rw [ih g1 (by omega) g2 (isWordChar c) cs' (by omega) (by omega)]
      · simp only [hb, if_false]
        match hm : matchAlts (c :: cs') with
        | some (l, rest) =>
          simp only
          have hlen := matchAlts_length hm
          simp only [List.length_cons] at hlen
          exact ih g1 (by omega) g2 (isWordChar l) rest (by omega) (by omega)
        | none =>
          simp only
          rw [ih g1 (by omega) g2 (isWordChar c) cs' (by omega) (by omega)]

/-- The natural recursion equation of the `re.sub` scan. -/
theorem subAll_eq (prevW : Bool) (cs : List Char) :
    subAll prevW cs =
      match cs with
      | [] => []
      | c :: cs' =>
        if prevW then c :: subAll (isWordChar c) cs'
        else
          match matchAlts (c :: cs') with
          | some (l, rest) => subAll (isWordChar l) rest
          | none => c :: subAll (isWordChar c) cs' := by
  match cs with
  | [] => simp [subAll, subAllF]
  | c :: cs' =>
    simp only [subAll, List.length_cons, subAllF]
    by_cases hb : prevW
    · simp only [hb, if_true]
    · simp only [hb, if_false]
      match hm : matchAlts (c :: cs') with
      | some (l, rest) =>
        simp only
        have hlen := matchAlts_length hm
        simp only [List.length_cons] at hlen
        exact subAllF_congr _ _ (isWordChar l) rest (by omega) (by omega)
      | none => simp only

/-!
## Decision-engine characterization
-/

theorem decideScore_high_iff (s : ℚ) :
    decideScore s = .accept_high ↔ 90 < s := by
  unfold decideScore SCORE_HIGH_CONF SCORE_MED_CONF SCORE_AI_MIN
  split_ifs with h1 h2 h3
  · exact ⟨fun _ => h1, fun _ => rfl⟩
  · exact ⟨fun h => absurd h (by decide), fun hs => absurd hs h1⟩
  · exact ⟨fun h => absurd h (by decide), fun hs => absurd hs h1⟩
  · exact ⟨fun h => absurd h (by decide), fun hs => absurd hs h1⟩

theorem decideScore_med_iff (s : ℚ) :
    decideScore s = .accept_medium ↔ 82 ≤ s ∧ s ≤ 90 := by
  unfold decideScore SCORE_HIGH_CONF SCORE_MED_CONF SCORE_AI_MIN
  split_ifs with h1 h2 h3
  · exact ⟨fun h => absurd h (by decide), fun hs => absurd h1 (not_lt.mpr hs.2)⟩
  · exact ⟨fun _ => ⟨h2, not_lt.mp h1⟩, fun _ => rfl⟩
  · exact ⟨fun h => absurd h (by decide), fun hs => absurd hs.1 h2⟩
  · exact ⟨fun h => absurd h (by decide), fun hs => absurd hs.1 h2⟩

theorem decideScore_esc_iff (s : ℚ) :
    decideScore s = .escalate ↔ 78 ≤ s ∧ s < 82 := by
  unfold decideScore SCORE_HIGH_CONF SCORE_MED_CONF SCORE_AI_MIN
  split_ifs with h1 h2 h3
  · exact ⟨fun h => absurd h (by decide), fun hs => by linarith [hs.2]⟩
  · exact ⟨fun h => absurd h (by decide), fun hs => absurd h2 (not_le.mpr hs.2)⟩
  · exact ⟨fun _ => ⟨h3, not_le.mp h2⟩, fun _ => rfl⟩
  · exact ⟨fun h => absurd h (by decide), fun hs => absurd hs.1 h3⟩

theorem decideScore_rej_iff (s : ℚ) :
    decideScore s = .reject ↔ s < 78 := by
  unfold decideScore SCORE_HIGH_CONF SCORE_MED_CONF SCORE_AI_MIN
  split_ifs with h1 h2 h3
  · exact ⟨fun h => absurd h (by decide), fun hs => absurd (h1.trans hs) (by norm_num)⟩
  · exact ⟨fun h => absurd h (by decide), fun hs => absurd h2 (not_le.mpr (by linarith))⟩
  · exact ⟨fun h => absurd h (by decide), fun hs => absurd h3 (not_le.mpr hs)⟩
  · exact ⟨fun _ => not_le.mp h3, fun _ => rfl⟩

/-!
## Claims
-/

/-- **C1.** For every score in [0,100] the decision function yields exactly
one of the four outcomes with the fixed thresholds evaluated high to low
(`> 90` high, `82 ≤ s ≤ 90` medium, `78 ≤ s < 82` escalate, `< 78`
reject); in particular 90 → `accept_medium`, 82 → `accept_medium`,
78 → `escalate`, 77.999 → `reject`; and the pipeline persists
`accept_high` with method `fuzzy_high_conf` and `accept_medium` with
method `fuzzy_med_conf`. -/
theorem C1_decision_engine :
    (∀ s : ℚ, 0 ≤ s → s ≤ 100 →
      ((decideScore s = .accept_high ↔ 90 < s) ∧
       (decideScore s = .accept_medium ↔ 82 ≤ s ∧ s ≤ 90) ∧
       (decideScore s = .escalate ↔ 78 ≤ s ∧ s < 82) ∧
       (decideScore s = .reject ↔ s < 78))) ∧
    decideScore 90 = .accept_medium ∧
    decideScore 82 = .accept_medium ∧
    decideScore 78 = .escalate ∧
    decideScore (mkRat 77999 1000) = .reject ∧
    ((runMatcher 6 schedNever oracleYes [abrFix "A1" "abcd"]
        [ccFix "abcd"]).master.map (fun r => r.match_method) =
      ["fuzzy_high_conf"]) ∧
    ((runMatcher 6 schedNever oracleYes [abrFix "A2" "abcdefghix"]
        [ccFix "abcdefghij"]).master.map (fun r => r.match_method) =
      ["fuzzy_med_conf"]) := by
  refine ⟨fun s _ _ => ⟨decideScore_high_iff s, decideScore_med_iff s,
      decideScore_esc_iff s, decideScore_rej_iff s⟩,
    ?_, ?_, ?_, ?_, ?_, ?_⟩
  · with_unfolding_all rfl
  · with_unfolding_all rfl
  · with_unfolding_all rfl
  · with_unfolding_all rfl
  · with_unfolding_all rfl
  · with_unfolding_all rfl

/-- Witness for C1 at the concrete score 85. -/
theorem C1_witness :
    (0 : ℚ) ≤ 85 ∧ (85 : ℚ) ≤ 100 ∧
      decideScore 85 = MatchDecision.accept_medium :=
  ⟨by norm_num, by norm_num,
    ((C1_decision_engine.1 85 (by norm_num) (by norm_num)).2.1).mpr
      (by norm_num)⟩

/-- **C9, counterexample.** On a (degenerate) store state that already
holds two rows with the key of `recFix`, two consecutive conditional
inserts leave two rows with that key, not exactly one, refuting the claim
as universally quantified over every store state. -/
theorem C9_counterexample :
    (insertMatchIfAbsent (insertMatchIfAbsent [recFix, recFix] recFix)
        recFix).countP (sameKey recFix) = 2 := by
  with_unfolding_all rfl

/-- **C9, amended.** The second insert of the same record is always a
no-op, and on any store holding at most one row per key — in particular
any store populated through `insertMatchIfAbsent` itself — two consecutive
inserts with the same (abn, website_url) pair leave exactly one row with
that pair. -/
theorem C9_insert_idempotent (db : List MatchRec) (rec : MatchRec) :
    insertMatchIfAbsent (insertMatchIfAbsent db rec) rec =
      insertMatchIfAbsent db rec ∧
    (db.countP (sameKey rec) ≤ 1 →
      (insertMatchIfAbsent (insertMatchIfAbsent db rec) rec).countP
        (sameKey rec) = 1) := by
  have hself : sameKey rec rec = true := by simp [sameKey]
  by_cases h : db.any (sameKey rec)
  · constructor
    · simp [insertMatchIfAbsent, h]
    · intro hle
      have h1 : 0 < db.countP (sameKey rec) := by
        rcases List.any_eq_true.mp h with ⟨x, hx, hk⟩
        exact List.countP_pos_iff.mpr ⟨x, hx, hk⟩
      simp only [insertMatchIfAbsent, h, if_true]
      omega
  · have h2 : (db ++ [rec]).any (sameKey rec) = true := by
      simp [List.any_append, hself]
    constructor
    · simp [insertMatchIfAbsent, h, h2]
    · intro _
      have h0 : db.countP (sameKey rec) = 0 := by
        rw [List.countP_eq_zero]
        intro a ha
        rcases List.any_eq_false.mp (Bool.of_not_eq_true h) a ha with hk
        simp [hk]
      simp [insertMatchIfAbsent, h, h2, List.countP_append, h0, hself]

/-- Witness for C9 on the empty store. -/
theorem C9_witness :
    (insertMatchIfAbsent (insertMatchIfAbsent [] recFix) recFix =
      insertMatchIfAbsent [] recFix) ∧
    (insertMatchIfAbsent (insertMatchIfAbsent [] recFix) recFix).countP
      (sameKey recFix) = 1 :=
  ⟨(C9_insert_idempotent [] recFix).1,
   (C9_insert_idempotent [] recFix).2 (by simp)⟩

/-- **C5.** For every escalated (query, candidate) pair, `_run_ai_job`
writes exactly one `ValidationLogEntry` — whatever the transport outcome
and however the response parses — and, when the job returns normally (the
log write succeeded), the drain writes a MatchRecord with method
`ai_validated` if and only if the parsed verdict is approved. -/
theorem C5_audit_per_job (loads : String → Except String JsonView)
    (tr : TransportOutcome) (ccName abrName : String) (fuzzyScore : ℚ)
    (cc : CcRow) (abr : AbrRow) :
    (runAiJob loads tr ccName abrName fuzzyScore).1.length = 1 ∧
    collectJob cc abr (runAiJob loads tr ccName abrName fuzzyScore) =
      (if (validate loads tr ccName abrName).parsed.same_entity = true then
        [buildRecord cc abr "ai_validated"
          ((validate loads tr ccName abrName).parsed.confidence * 100)]
      else []) ∧
    (buildRecord cc abr "ai_validated"
        ((validate loads tr ccName abrName).parsed.confidence * 100)).match_method =
      "ai_validated" := by
  refine ⟨rfl, ?_, rfl⟩
  unfold collectJob runAiJob
  by_cases h : (validate loads tr ccName abrName).parsed.same_entity <;> simp [h]

/-- **C7.** `AIValidator.validate` is total: on any transport failure or
timeout it returns the non-approved verdict with confidence 0.0 and the
diagnostic reason `LLM request failed`; on a response from which no JSON
object can be extracted (fence-stripping, whole-text decode, then
first-brace-span decode all fail) it returns a non-approved verdict with
confidence 0.0 and a `Parsing failed` reason; both leave the pipeline able
to continue. -/
theorem C7_validator_total (loads : String → Except String JsonView)
    (nameA nameB excMsg text : String) :
    (validate loads (.failure excMsg) nameA nameB).parsed =
      { same_entity := false, confidence := 0, reason := "LLM request failed" } ∧
    (∀ e, extractJson loads (pyStrip text) = .error e →
      (validate loads (.success text) nameA nameB).parsed =
        { same_entity := false, confidence := 0,
          reason := "Parsing failed: " ++ e }) := by
  refine ⟨rfl, fun e he => ?_⟩
  unfold validate
  simp only [he]

/-- Witness for C7 with a decoder that always fails on a fence-free,
brace-free response text. -/
theorem C7_witness :
    (extractJson (fun _ => (.error "decode failure" : Except String JsonView))
        (pyStrip "no json here") =
      .error ("No valid JSON in LLM response: no json here")) ∧
    (validate (fun _ => (.error "decode failure" : Except String JsonView))
        (.success "no json here") "A Co" "B Co").parsed =
      { same_entity := false, confidence := 0,
        reason := "Parsing failed: No valid JSON in LLM response: no json here" } :=
  ⟨by with_unfolding_all rfl,
   (C7_validator_total (fun _ => .error "decode failure") "A Co" "B Co" "x"
      "no json here").2 _ (by with_unfolding_all rfl)⟩

/-- **C3, counterexample.** A query whose strongly-normalized name is
non-empty but for which neither blocking bucket has entries is *not*
counted as rejected (the code `continue`s without touching any counter),
refuting "immediately counted as rejected": the run below processes one
record and ends with `total_rejected = 0`. -/
theorem C3_counterexample :
    (runMatcher 6 schedNever oracleYes [] [ccFix "abcd"]).total_proc = 1 ∧
    (runMatcher 6 schedNever oracleYes [] [ccFix "abcd"]).total_rejected = 0 ∧
    (runMatcher 6 schedNever oracleYes [] [ccFix "abcd"]).total_written = 0 ∧
    (runMatcher 6 schedNever oracleYes [] [ccFix "abcd"]).total_ai = 0 :=
  ⟨by with_unfolding_all rfl, by with_unfolding_all rfl,
   by with_unfolding_all rfl, by with_unfolding_all rfl⟩

/-- **C3, amended.** Whenever candidate retrieval returns an empty list
for a query record with non-empty strongly-normalized name, the record is
skipped immediately — the scorer is never engaged and no counter other
than the processed total changes (in particular it is *not* counted as
rejected). -/
theorem C3_no_candidates_skips (K : ℕ) (sched : ℕ → ℕ → Bool)
    (oracle : CcRow → AbrRow → ℚ → JobOutcome)
    (idx : (List Char → List AbrRow) × (List Char → List AbrRow))
    (st : RunState) (row : CcRow)
    (h1 : (strongNormalize row.normalized_name).data ≠ [])
    (h2 : (getCandidates ((strongNormalize row.normalized_name).data)
      idx.1 idx.2).1 = []) :
    step K sched oracle idx st row =
      { st with total_proc := st.total_proc + 1 } := by
  unfold step
  simp only [h1, if_false, h2, if_true]

/-- Witness for C3 on a concrete query with an empty reference set. -/
theorem C3_witness :
    step 6 schedNever oracleYes (buildIndexes []) {} (ccFix "abcd") =
      { ({} : RunState) with total_proc := ({} : RunState).total_proc + 1 } :=
  C3_no_candidates_skips 6 schedNever oracleYes (buildIndexes []) {}
    (ccFix "abcd") (by with_unfolding_all decide) (by with_unfolding_all rfl)

/-- **C10.** The pre-filter uses only the token-set measure with inclusive
cutoff 77 and passes only the single best candidate to the composite
rescorer; a candidate whose best token-set score is below 77 is discarded
and the record counted rejected, with the composite scorer and decision
engine never engaged.  The pair `("abcd", "abcdefgh")` has token-set score
200/3 < 77 but composite score 100 > 90 (the substring measure is 100),
and a run on exactly that pair ends rejected with nothing written and no
escalation. -/
theorem C10_prefilter_token_set_only :
    tokenSetSim "abcd".data "abcdefgh".data < 77 ∧
    90 < compositeScore "abcd" "abcdefgh" ∧
    substrSim "abcd".data "abcdefgh".data = 100 ∧
    (∀ (K : ℕ) (sched : ℕ → ℕ → Bool)
      (oracle : CcRow → AbrRow → ℚ → JobOutcome)
      (idx : (List Char → List AbrRow) × (List Char → List AbrRow))
      (st : RunState) (row : CcRow),
      (strongNormalize row.normalized_name).data ≠ [] →
      (getCandidates ((strongNormalize row.normalized_name).data)
        idx.1 idx.2).1 ≠ [] →
      extractOne ((strongNormalize row.normalized_name).data)
        (getCandidates ((strongNormalize row.normalized_name).data)
          idx.1 idx.2).2 (SCORE_AI_MIN - 1) = none →
      step K sched oracle idx st row =
        { st with
          total_proc := st.total_proc + 1
          total_rejected := st.total_rejected + 1 }) ∧
    (runMatcher 6 schedNever oracleYes [abrFix "A3" "abcdefgh"]
      [ccFix "abcd"]).total_rejected = 1 ∧
    (runMatcher 6 schedNever oracleYes [abrFix "A3" "abcdefgh"]
      [ccFix "abcd"]).master = [] ∧
    (runMatcher 6 schedNever oracleYes [abrFix "A3" "abcdefgh"]
      [ccFix "abcd"]).total_ai = 0 := by
  refine ⟨by with_unfolding_all decide, by with_unfolding_all decide,
    by with_unfolding_all rfl, ?_, by with_unfolding_all rfl,
    by with_unfolding_all rfl, by with_unfolding_all rfl⟩
  intro K sched oracle idx st row h1 h2 h3
  unfold step
  simp only [h1, if_false, h2, h3]

/-- Witness for C10's pre-filter branch at the concrete pair. -/
theorem C10_witness :
    (step 6 schedNever oracleYes (buildIndexes [abrFix "A3" "abcdefgh"]) {}
      (ccFix "abcd")).total_rejected = 1 := by
  have h := C10_prefilter_token_set_only.2.2.2.1 6 schedNever oracleYes
    (buildIndexes [abrFix "A3" "abcdefgh"]) {} (ccFix "abcd")
    (by with_unfolding_all decide) (by with_unfolding_all decide)
    (by with_unfolding_all rfl)
  rw [h]

/-- **C4, counterexample.** With the default worker count K = 6 and a
schedule under which no job completes during the loop (the drain is a
non-blocking poll, so it can collect nothing), thirteen consecutive
escalations drive the in-flight job count to 13 > 2·6 = 12: the high-water
mark does not bound the in-flight set. -/
theorem C4_counterexample :
    (runLoop 6 schedNever oracleYes
      (buildIndexes [abrFix "A4" "abcdefghxy"])
      (List.replicate 13 (ccFix "abcdefghij"))).peak = 13 ∧
    2 * 6 < 13 :=
  ⟨by with_unfolding_all rfl, by norm_num⟩

theorem drainCompleted_schedAlways_pending
    (oracle : CcRow → AbrRow → ℚ → JobOutcome) (t : ℕ) (st : RunState) :
    (drainCompleted schedAlways oracle t st).pending = [] := by
  simp [drainCompleted, schedAlways]

theorem drainCompleted_peak (sched : ℕ → ℕ → Bool)
    (oracle : CcRow → AbrRow → ℚ → JobOutcome) (t : ℕ) (st : RunState) :
    (drainCompleted sched oracle t st).peak = st.peak := rfl

theorem decideAct_bound (K : ℕ) (st : RunState) (row : CcRow)
    (abr : AbrRow) (score : ℚ) (hp : st.pending.length + 1 ≤ 2 * K)
    (hpk : st.peak ≤ 2 * K) :
    (decideAct st row abr score).pending.length ≤ 2 * K ∧
    (decideAct st row abr score).peak ≤ 2 * K := by
  unfold decideAct
  cases decideScore score
  case reject => exact ⟨by simp; omega, by simpa using hpk⟩
  case escalate =>
    constructor
    · simp only [List.length_append, List.length_cons, List.length_nil]
      omega
    · simp only [max_le_iff]
      exact ⟨hpk, hp⟩
  case accept_medium => exact ⟨by simp; omega, by simpa using hpk⟩
  case accept_high => exact ⟨by simp; omega, by simpa using hpk⟩

theorem step_schedAlways_bounded (K : ℕ)
    (oracle : CcRow → AbrRow → ℚ → JobOutcome)
    (idx : (List Char → List AbrRow) × (List Char → List AbrRow))
    (st : RunState) (row : CcRow) (hK : 1 ≤ K)
    (hp : st.pending.length + 1 ≤ 2 * K) (hpk : st.peak ≤ 2 * K) :
    (step K schedAlways oracle idx st row).pending.length + 1 ≤ 2 * K ∧
    (step K schedAlways oracle idx st row).peak ≤ 2 * K := by
  have hcheck : ∀ st' : RunState, st'.pending.length ≤ 2 * K →
      st'.peak ≤ 2 * K →
      ((if 2 * K ≤ st'.pending.length then
          drainCompleted schedAlways oracle st'.total_proc st'
        else st')).pending.length + 1 ≤ 2 * K ∧
      ((if 2 * K ≤ st'.pending.length then
          drainCompleted schedAlways oracle st'.total_proc st'
        else st')).peak ≤ 2 * K := by
    intro st' hp' hpk'
    split_ifs with hlen
    · rw [drainCompleted_schedAlways_pending, drainCompleted_peak]
      refine ⟨by simpa using by omega, hpk'⟩
    · exact ⟨by omega, hpk'⟩
  unfold step
  by_cases h1 : (strongNormalize row.normalized_name).data = []
  · simp only [h1, if_true]
    exact ⟨hp, hpk⟩
  · simp only [h1, if_false]
    by_cases h2 : (getCandidates ((strongNormalize row.normalized_name).data)
        idx.1 idx.2).1 = []
    · simp only [h2, if_true]
      exact ⟨hp, hpk⟩
    · simp only [h2, if_false]
      match hext : extractOne ((strongNormalize row.normalized_name).data)
          (getCandidates ((strongNormalize row.normalized_name).data)
            idx.1 idx.2).2 (SCORE_AI_MIN - 1) with
      | none =>
        simp only
        exact ⟨hp, hpk⟩
      | some (sc, i) =>
        simp only
        have hb := decideAct_bound K
          { st with total_proc := st.total_proc + 1 } row
          ((getCandidates ((strongNormalize row.normalized_name).data)
            idx.1 idx.2).1.getD i default)
          (compositeScore
            (String.mk ((strongNormalize row.normalized_name).data))
            ((getCandidates ((strongNormalize row.normalized_name).data)
              idx.1 idx.2).1.getD i default).strong_norm)
          (by simpa using hp) (by simpa using hpk)
        exact hcheck _ hb.1 hb.2

theorem runLoop_schedAlways_bounded (K : ℕ)
    (oracle : CcRow → AbrRow → ℚ → JobOutcome)
    (idx : (List Char → List AbrRow) × (List Char → List AbrRow))
    (hK : 1 ≤ K) :
    ∀ (ccRows : List CcRow) (st : RunState),
      st.pending.length + 1 ≤ 2 * K → st.peak ≤ 2 * K →
      (ccRows.foldl (step K schedAlways oracle idx) st).pending.length + 1 ≤ 2 * K ∧
      (ccRows.foldl (step K schedAlways oracle idx) st).peak ≤ 2 * K := by
  intro ccRows
  induction ccRows with
  | nil => intro st hp hpk; exact ⟨hp, hpk⟩
  | cons row rows ih =>
    intro st hp hpk
    have h := step_schedAlways_bounded K oracle idx st row hK hp hpk
    exact ih _ h.1 h.2

/-- **C4, amended.** The high-water drain is a non-blocking poll, so the
2·K bound on in-flight jobs holds only under the assumption that every
submitted job has completed by the time a drain polls it (schedule
`schedAlways`): then the in-flight count (whose running maximum, sampled
right after each submission, is the ghost field `peak`) never exceeds 2·K
at any step of the driver loop.  Without that assumption the count can
exceed 2·K without bound (see the counterexample, which reaches 13 > 12
with jobs that never complete during the loop). -/
theorem C4_bounded_under_completion (K : ℕ) (hK : 1 ≤ K)
    (oracle : CcRow → AbrRow → ℚ → JobOutcome)
    (abrRows : List AbrRowIn) (ccRows : List CcRow) :
    (runLoop K schedAlways oracle (buildIndexes abrRows) ccRows).peak ≤ 2 * K ∧
    (runMatcher K schedAlways oracle abrRows ccRows).peak ≤ 2 * K := by
  have h := runLoop_schedAlways_bounded K oracle (buildIndexes abrRows) hK
    ccRows {} (by simp; omega) (by simp)
  exact ⟨h.2, h.2⟩

/-- Witness for C4's amended bound at K = 6 on the 13-escalation input. -/
theorem C4_witness :
    (runMatcher 6 schedAlways oracleYes [abrFix "A4" "abcdefghxy"]
      (List.replicate 13 (ccFix "abcdefghij"))).peak ≤ 2 * 6 :=
  (C4_bounded_under_completion 6 (by norm_num) oracleYes
    [abrFix "A4" "abcdefghxy"] (List.replicate 13 (ccFix "abcdefghij"))).2

/-!
## Blocking-index lemmas (for C6)
-/

theorem updateIdx_mono {f : List Char → List AbrRow} {k k' : List Char}
    {v w : AbrRow} (h : v ∈ f k) : v ∈ updateIdx f k' w k := by
  unfold updateIdx
  split_ifs with he
  · exact List.mem_append_left _ h
  · exact h

theorem idxFold_mono (rows : List AbrRowIn) :
    ∀ (acc : (List Char → List AbrRow) × (List Char → List AbrRow))
      (k : List Char) (v : AbrRow),
      (v ∈ acc.1 k → v ∈ (rows.foldl idxStep acc).1 k) ∧
      (v ∈ acc.2 k → v ∈ (rows.foldl idxStep acc).2 k) := by
  induction rows with
  | nil => exact fun acc k v => ⟨id, id⟩
  | cons r rows ih =>
    intro acc k v
    constructor <;> intro h <;> simp only [List.foldl_cons]
    · refine (ih (idxStep acc r) k v).1 ?_
      unfold idxStep
      split_ifs with hsn
      · exact h
      · exact updateIdx_mono h
    · refine (ih (idxStep acc r) k v).2 ?_
      unfold idxStep
      split_ifs with hsn
      · exact h
      · exact updateIdx_mono h

theorem idxFold_adds (rows : List AbrRowIn) (r : AbrRowIn)
    (hsn : (strongNormalize r.normalized_name).data ≠ []) :
    ∀ (acc : (List Char → List AbrRow) × (List Char → List AbrRow)),
      r ∈ rows →
      (⟨r, String.mk ((strongNormalize r.normalized_name).data)⟩ : AbrRow) ∈
        (rows.foldl idxStep acc).1
          (take3 ((strongNormalize r.normalized_name).data)) ∧
      (⟨r, String.mk ((strongNormalize r.normalized_name).data)⟩ : AbrRow) ∈
        (rows.foldl idxStep acc).2
          (firstTok ((strongNormalize r.normalized_name).data)) := by
  induction rows with
  | nil => intro acc hr; simp at hr
  | cons r' rows ih =>
    intro acc hr
    rcases List.mem_cons.mp hr with heq | hmem
    · subst heq
      simp only [List.foldl_cons]
      constructor
      · refine (idxFold_mono rows (idxStep acc r) _ _).1 ?_
        unfold idxStep
        simp only [hsn, if_false]
        unfold updateIdx
        simp
      · refine (idxFold_mono rows (idxStep acc r) _ _).2 ?_
        unfold idxStep
        simp only [hsn, if_false]
        unfold updateIdx
        simp
    · simp only [List.foldl_cons]
      exact ih (idxStep acc r') hmem

theorem idxFold_sound (rows : List AbrRowIn) :
    ∀ (acc : (List Char → List AbrRow) × (List Char → List AbrRow))
      (k : List Char) (v : AbrRow),
      (v ∈ (rows.foldl idxStep acc).1 k →
        v ∈ acc.1 k ∨ ∃ r ∈ rows,
          v = ⟨r, String.mk ((strongNormalize r.normalized_name).data)⟩) ∧
      (v ∈ (rows.foldl idxStep acc).2 k →
        v ∈ acc.2 k ∨ ∃ r ∈ rows,
          v = ⟨r, String.mk ((strongNormalize r.normalized_name).data)⟩) := by
  induction rows with
  | nil => exact fun acc k v => ⟨fun h => Or.inl h, fun h => Or.inl h⟩
  | cons r' rows ih =>
    intro acc k v
    constructor <;> intro h <;> simp only [List.foldl_cons] at h
    · rcases (ih (idxStep acc r') k v).1 h with h1 | ⟨r, hrm, hre⟩
      · revert h1
        unfold idxStep
        split_ifs with hsn <;> intro h1
        · exact Or.inl h1
        · simp only at h1
          revert h1
          unfold updateIdx
          split_ifs with hk <;> intro h1
          · rcases List.mem_append.mp h1 with h2 | h2
            · exact Or.inl h2
            · exact Or.inr ⟨r', by simp, by simpa using h2⟩
          · exact Or.inl h1
      · exact Or.inr ⟨r, by simp [hrm], hre⟩
    · rcases (ih (idxStep acc r') k v).2 h with h1 | ⟨r, hrm, hre⟩
      · revert h1
        unfold idxStep
        split_ifs with hsn <;> intro h1
        · exact Or.inl h1
        · simp only at h1
          revert h1
          unfold updateIdx
          split_ifs with hk <;> intro h1
          · rcases List.mem_append.mp h1 with h2 | h2
            · exact Or.inl h2
            · exact Or.inr ⟨r', by simp, by simpa using h2⟩
          · exact Or.inl h1
      · exact Or.inr ⟨r, by simp [hrm], hre⟩

theorem dedupByAbn_mem :
    ∀ (l : List AbrRow) (seen : List String) (v : AbrRow),
      v ∈ l → (∀ w ∈ l, w.abn = v.abn → w = v) → v.abn ∉ seen →
      v ∈ dedupByAbn seen l := by
  intro l
  induction l with
  | nil => intro seen v hv; simp at hv
  | cons w ws ih =>
    intro seen v hv huniq hseen
    rw [dedupByAbn]
    rcases List.mem_cons.mp hv with heq | hmem
    · subst heq
      rw [if_neg hseen]
      exact List.mem_cons_self _ _
    · by_cases hin : w.abn ∈ seen
      · rw [if_pos hin]
        exact ih seen v hmem (fun x hx => huniq x (List.mem_cons_of_mem _ hx))
          hseen
      · rw [if_neg hin]
        by_cases hvw : v = w
        · subst hvw; exact List.mem_cons_self _ _
        · have hne : w.abn ≠ v.abn := fun habn =>
            hvw ((huniq w (List.mem_cons_self _ _) habn).symm)
          refine List.mem_cons_of_mem _ ?_
          refine ih (w.abn :: seen) v hmem
            (fun x hx => huniq x (List.mem_cons_of_mem _ hx)) ?_
          simp only [List.mem_cons]
          rintro (h | h)
          · exact hne h.symm
          · exact hseen h

/-- **C6.** For every reference record whose strongly-normalized name is
non-empty, and every query with an identical strongly-normalized name,
candidate retrieval over the index built from the reference set includes
that record: it appears in the 3-character-prefix bucket and in the
first-token bucket under the query's keys, and survives deduplication by
identifier provided identifiers are unique across the reference set. -/
theorem C6_blocking_completeness (rows : List AbrRowIn) (r : AbrRowIn)
    (hr : r ∈ rows)
    (hsn : (strongNormalize r.normalized_name).data ≠ [])
    (huniq : (rows.map (fun x => x.abn)).Nodup)
    (q : String) (hq : strongNormalize q = strongNormalize r.normalized_name) :
    (⟨r, String.mk ((strongNormalize r.normalized_name).data)⟩ : AbrRow) ∈
      (buildIndexes rows).1 (take3 ((strongNormalize q).data)) ∧
    (⟨r, String.mk ((strongNormalize r.normalized_name).data)⟩ : AbrRow) ∈
      (buildIndexes rows).2 (firstTok ((strongNormalize q).data)) ∧
    (⟨r, String.mk ((strongNormalize r.normalized_name).data)⟩ : AbrRow) ∈
      (getCandidates ((strongNormalize q).data)
        (buildIndexes rows).1 (buildIndexes rows).2).1 := by
  rw [hq]
  have hadds := idxFold_adds rows r hsn (fun _ => [], fun _ => []) hr
  have hinj : ∀ x ∈ rows, ∀ y ∈ rows, x.abn = y.abn → x = y := by
    intro x hx y hy hxy
    exact List.inj_on_of_nodup_map huniq hx hy hxy
  refine ⟨hadds.1, hadds.2, ?_⟩
  unfold getCandidates
  simp only
  refine dedupByAbn_mem _ [] _ (List.mem_append_left _ hadds.1) ?_ (by simp)
  intro w hw habn
  have hworig : ∃ rw ∈ rows,
      w = ⟨rw, String.mk ((strongNormalize rw.normalized_name).data)⟩ := by
    rcases List.mem_append.mp hw with h | h
    · rcases (idxFold_sound rows (fun _ => [], fun _ => []) _ w).1 h with
        h1 | h1
      · simp at h1
      · exact h1
    · rcases (idxFold_sound rows (fun _ => [], fun _ => []) _ w).2 h with
        h1 | h1
      · simp at h1
      · exact h1
  rcases hworig with ⟨rw, hrwm, hrw⟩
  have : rw = r := by
    refine hinj rw hrwm r hr ?_
    have : w.abn = rw.abn := by rw [hrw]
    simp only [this] at habn
    exact habn
  rw [hrw, this]

/-- Witness for C6 on a one-row reference set. -/
theorem C6_witness :
    (⟨abrFix "A9" "zeta works",
      String.mk ((strongNormalize (abrFix "A9" "zeta works").normalized_name).data)⟩ :
        AbrRow) ∈
      (getCandidates ((strongNormalize "zeta works").data)
        (buildIndexes [abrFix "A9" "zeta works"]).1
        (buildIndexes [abrFix "A9" "zeta works"]).2).1 :=
  (C6_blocking_completeness [abrFix "A9" "zeta works"] (abrFix "A9" "zeta works")
    (by simp) (by with_unfolding_all decide) (by simp) "zeta works" rfl).2.2

/-!
## Accounting lemmas (for C2)
-/

theorem resolveJob_length (oracle : CcRow → AbrRow → ℚ → JobOutcome)
    (j : PendingJob) :
    (resolveJob oracle j).length = if jobApproved oracle j then 1 else 0 := by
  unfold resolveJob jobApproved
  cases h : oracle j.cc j.abr j.score with
  | err => simp
  | done approved conf => by_cases ha : approved <;> simp [ha]

theorem flatMap_resolveJob_length (oracle : CcRow → AbrRow → ℚ → JobOutcome)
    (l : List PendingJob) :
    (l.flatMap (resolveJob oracle)).length = l.countP (jobApproved oracle) := by
  induction l with
  | nil => rfl
  | cons j js ih =>
    simp only [List.flatMap_cons, List.length_append, ih,
      List.countP_cons, resolveJob_length oracle j]
    by_cases h : jobApproved oracle j <;> simp [h] <;> omega

theorem countP_filter_partition (p q : PendingJob → Bool) (l : List PendingJob) :
    (l.filter p).countP q + (l.filter (fun a => !p a)).countP q =
      l.countP q := by
  induction l with
  | nil => rfl
  | cons a l ih =>
    by_cases hp : p a <;> by_cases hq : q a <;>
      simp [List.filter_cons, List.countP_cons, hp, hq] <;> omega

theorem drain_written (sched : ℕ → ℕ → Bool)
    (oracle : CcRow → AbrRow → ℚ → JobOutcome) (t : ℕ) (st : RunState) :
    (drainCompleted sched oracle t st).total_written +
      (drainCompleted sched oracle t st).pending.countP (jobApproved oracle) =
    st.total_written + st.pending.countP (jobApproved oracle) := by
  unfold drainCompleted
  simp only
  rw [flatMap_resolveJob_length]
  have h := countP_filter_partition (fun j => sched t j.id) (jobApproved oracle)
    st.pending
  omega

theorem finalDrain_acct (oracle : CcRow → AbrRow → ℚ → JobOutcome)
    (st : RunState) :
    (finalDrain oracle st).total_written =
      st.total_written + st.pending.countP (jobApproved oracle) ∧
    (finalDrain oracle st).pending = [] := by
  refine ⟨?_, rfl⟩
  show st.total_written + (st.pending.flatMap (resolveJob oracle)).length =
    st.total_written + st.pending.countP (jobApproved oracle)
  rw [flatMap_resolveJob_length]

theorem drainCheck_acct (K : ℕ) (sched : ℕ → ℕ → Bool)
    (oracle : CcRow → AbrRow → ℚ → JobOutcome) (st' : RunState) :
    (if 2 * K ≤ st'.pending.length then
        drainCompleted sched oracle st'.total_proc st'
      else st').total_proc = st'.total_proc ∧
    (if 2 * K ≤ st'.pending.length then
        drainCompleted sched oracle st'.total_proc st'
      else st').total_high = st'.total_high ∧
    (if 2 * K ≤ st'.pending.length then
        drainCompleted sched oracle st'.total_proc st'
      else st').total_med = st'.total_med ∧
    (if 2 * K ≤ st'.pending.length then
        drainCompleted sched oracle st'.total_proc st'
      else st').total_ai = st'.total_ai ∧
    (if 2 * K ≤ st'.pending.length then
        drainCompleted sched oracle st'.total_proc st'
      else st').total_rejected = st'.total_rejected ∧
    (if 2 * K ≤ st'.pending.length then
        drainCompleted sched oracle st'.total_proc st'
      else st').total_written +
      (if 2 * K ≤ st'.pending.length then
          drainCompleted sched oracle st'.total_proc st'
        else st').pending.countP (jobApproved oracle) =
      st'.total_written + st'.pending.countP (jobApproved oracle) := by
  split_ifs with h
  · exact ⟨rfl, rfl, rfl, rfl, rfl, drain_written sched oracle _ st'⟩
  · exact ⟨rfl, rfl, rfl, rfl, rfl, rfl⟩

theorem decideAct_acct (oracle : CcRow → AbrRow → ℚ → JobOutcome)
    (st : RunState) (row : CcRow) (abr : AbrRow) (score : ℚ) :
    (decideAct st row abr score).total_proc = st.total_proc ∧
    (decideAct st row abr score).total_high = st.total_high +
      (if classOfDecision (decideScore score) = .high then 1 else 0) ∧
    (decideAct st row abr score).total_med = st.total_med +
      (if classOfDecision (decideScore score) = .med then 1 else 0) ∧
    (decideAct st row abr score).total_ai = st.total_ai +
      (if classOfDecision (decideScore score) = .esc then 1 else 0) ∧
    (decideAct st row abr score).total_rejected = st.total_rejected +
      (if classOfDecision (decideScore score) = .preReject ∨
          classOfDecision (decideScore score) = .lowReject then 1 else 0) ∧
    (decideAct st row abr score).total_written +
      (decideAct st row abr score).pending.countP (jobApproved oracle) =
      st.total_written + st.pending.countP (jobApproved oracle) +
      (if classOfDecision (decideScore score) = .high then 1 else 0) +
      (if classOfDecision (decideScore score) = .med then 1 else 0) +
      (if classOfDecision (decideScore score) = .esc ∧
          jobApproved oracle ⟨st.total_ai, row, abr, score⟩ = true
        then 1 else 0) := by
  unfold decideAct
  cases decideScore score
  case reject => simp [classOfDecision]
  case escalate =>
    refine ⟨rfl, by simp [classOfDecision], by simp [classOfDecision],
      by simp [classOfDecision], by simp [classOfDecision], ?_⟩
    simp only [classOfDecision, List.countP_append, List.countP_cons,
      List.countP_nil]
    by_cases ha : jobApproved oracle ⟨st.total_ai, row, abr, score⟩ <;>
      simp [ha] <;> omega
  case accept_medium => simp [classOfDecision]; omega
  case accept_high => simp [classOfDecision]; omega

theorem step_acct (K : ℕ) (sched : ℕ → ℕ → Bool)
    (oracle : CcRow → AbrRow → ℚ → JobOutcome)
    (idx : (List Char → List AbrRow) × (List Char → List AbrRow))
    (st : RunState) (row : CcRow) :
    (step K sched oracle idx st row).total_proc = st.total_proc + 1 ∧
    (step K sched oracle idx st row).total_high = st.total_high +
      (if classifyRow idx row = .high then 1 else 0) ∧
    (step K sched oracle idx st row).total_med = st.total_med +
      (if classifyRow idx row = .med then 1 else 0) ∧
    (step K sched oracle idx st row).total_ai = st.total_ai +
      (if classifyRow idx row = .esc then 1 else 0) ∧
    (step K sched oracle idx st row).total_rejected = st.total_rejected +
      (if classifyRow idx row = .preReject ∨ classifyRow idx row = .lowReject
        then 1 else 0) ∧
    (step K sched oracle idx st row).total_written +
      (step K sched oracle idx st row).pending.countP (jobApproved oracle) =
      st.total_written + st.pending.countP (jobApproved oracle) +
      (if classifyRow idx row = .high then 1 else 0) +
      (if classifyRow idx row = .med then 1 else 0) +
      (if classifyRow idx row = .esc ∧ escApproved oracle idx row = true
        then 1 else 0) := by
  unfold step classifyRow
  by_cases h1 : (strongNormalize row.normalized_name).data = []
  · simp [h1]
  · simp only [h1, if_false]
    by_cases h2 : (getCandidates ((strongNormalize row.normalized_name).data)
        idx.1 idx.2).1 = []
    · simp [h2]
    · simp only [h2, if_false]
      rcases hext : extractOne ((strongNormalize row.normalized_name).data)
          (getCandidates ((strongNormalize row.normalized_name).data)
            idx.1 idx.2).2 (SCORE_AI_MIN - 1) with _ | ⟨sc, i⟩
      · simp [hext]
      · simp only [hext]
        have happ : jobApproved oracle
            ⟨st.total_ai, row,
              (getCandidates ((strongNormalize row.normalized_name).data)
                idx.1 idx.2).1.getD i default,
              compositeScore
                (String.mk ((strongNormalize row.normalized_name).data))
                ((getCandidates ((strongNormalize row.normalized_name).data)
                  idx.1 idx.2).1.getD i default).strong_norm⟩ =
            escApproved oracle idx row := by
          unfold jobApproved escApproved jobContent
          simp only [hext]
          rfl
        have hd := drainCheck_acct K sched oracle
          (decideAct { st with total_proc := st.total_proc + 1 } row
            ((getCandidates ((strongNormalize row.normalized_name).data)
              idx.1 idx.2).1.getD i default)
            (compositeScore
              (String.mk ((strongNormalize row.normalized_name).data))
              ((getCandidates ((strongNormalize row.normalized_name).data)
                idx.1 idx.2).1.getD i default).strong_norm))
        have ha := decideAct_acct oracle
          { st with total_proc := st.total_proc + 1 } row
          ((getCandidates ((strongNormalize row.normalized_name).data)
            idx.1 idx.2).1.getD i default)
          (compositeScore
            (String.mk ((strongNormalize row.normalized_name).data))
            ((getCandidates ((strongNormalize row.normalized_name).data)
              idx.1 idx.2).1.getD i default).strong_norm)
        refine ⟨?_, ?_, ?_, ?_, ?_, ?_⟩
        · rw [hd.1, ha.1]
        · rw [hd.2.1, ha.2.1]
        · rw [hd.2.2.1, ha.2.2.1]
        · rw [hd.2.2.2.1, ha.2.2.2.1]
        · rw [hd.2.2.2.2.1, ha.2.2.2.2.1]
        · rw [hd.2.2.2.2.2, ha.2.2.2.2.2, happ]

theorem loop_acct (K : ℕ) (sched : ℕ → ℕ → Bool)
    (oracle : CcRow → AbrRow → ℚ → JobOutcome)
    (idx : (List Char → List AbrRow) × (List Char → List AbrRow)) :
    ∀ (rows : List CcRow) (st : RunState),
      (rows.foldl (step K sched oracle idx) st).total_proc =
        st.total_proc + rows.length ∧
      (rows.foldl (step K sched oracle idx) st).total_high =
        st.total_high +
          rows.countP (fun r => decide (classifyRow idx r = .high)) ∧
      (rows.foldl (step K sched oracle idx) st).total_med =
        st.total_med +
          rows.countP (fun r => decide (classifyRow idx r = .med)) ∧
      (rows.foldl (step K sched oracle idx) st).total_ai =
        st.total_ai +
          rows.countP (fun r => decide (classifyRow idx r = .esc)) ∧
      (rows.foldl (step K sched oracle idx) st).total_rejected =
        st.total_rejected +
          rows.countP (fun r => decide (classifyRow idx r = .preReject ∨
            classifyRow idx r = .lowReject)) ∧
      (rows.foldl (step K sched oracle idx) st).total_written +
        (rows.foldl (step K sched oracle idx) st).pending.countP
          (jobApproved oracle) =
        st.total_written + st.pending.countP (jobApproved oracle) +
          rows.countP (fun r => decide (classifyRow idx r = .high)) +
          rows.countP (fun r => decide (classifyRow idx r = .med)) +
          rows.countP (fun r => decide (classifyRow idx r = .esc ∧
            escApproved oracle idx r = true)) := by
  intro rows
  induction rows with
  | nil => intro st; refine ⟨rfl, rfl, rfl, rfl, rfl, rfl⟩
  | cons r rows ih =>
    intro st
    have hs := step_acct K sched oracle idx st r
    have hi := ih (step K sched oracle idx st r)
    simp only [List.foldl_cons, List.length_cons, List.countP_cons]
    refine ⟨?_, ?_, ?_, ?_, ?_, ?_⟩
    · rw [hi.1, hs.1]; omega
    · rw [hi.2.1, hs.2.1]
      by_cases h : classifyRow idx r = .high <;> simp [h] <;> omega
    · rw [hi.2.2.1, hs.2.2.1]
      by_cases h : classifyRow idx r = .med <;> simp [h] <;> omega
    · rw [hi.2.2.2.1, hs.2.2.2.1]
      by_cases h : classifyRow idx r = .esc <;> simp [h] <;> omega
    · rw [hi.2.2.2.2.1, hs.2.2.2.2.1]
      by_cases h : classifyRow idx r = .preReject ∨
          classifyRow idx r = .lowReject <;> simp [h] <;> omega
    · rw [hi.2.2.2.2.2, hs.2.2.2.2.2]
      by_cases hh : classifyRow idx r = .high <;>
        by_cases hm : classifyRow idx r = .med <;>
        by_cases he : classifyRow idx r = .esc ∧
          escApproved oracle idx r = true <;>
        simp [hh, hm, he] <;> omega

theorem classify_partition
    (idx : (List Char → List AbrRow) × (List Char → List AbrRow))
    (rows : List CcRow) :
    rows.length =
      rows.countP (fun r => decide (classifyRow idx r = .high)) +
      rows.countP (fun r => decide (classifyRow idx r = .med)) +
      rows.countP (fun r => decide (classifyRow idx r = .esc)) +
      rows.countP (fun r => decide (classifyRow idx r = .preReject ∨
        classifyRow idx r = .lowReject)) +
      rows.countP (fun r => decide (classifyRow idx r = .skipEmpty ∨
        classifyRow idx r = .skipNoCand)) := by
  induction rows with
  | nil => rfl
  | cons r rows ih =>
    simp only [List.length_cons, List.countP_cons]
    rw [ih]
    cases h : classifyRow idx r <;> simp [h] <;> omega

/-- **C2, counterexample.** A run over one query record whose
strongly-normalized name is empty processes one record but counts it in no
bucket: processed = 1 while accepted-high, accepted-medium, escalations,
rejections and writes are all 0, so the claimed partition
`processed = accepted_high + accepted_medium + ai_approved + ai_rejected +
rejected_outright` fails (1 ≠ 0). -/
theorem C2_counterexample :
    (runMatcher 6 schedNever oracleYes [] [ccFix ""]).total_proc = 1 ∧
    (runMatcher 6 schedNever oracleYes [] [ccFix ""]).total_high = 0 ∧
    (runMatcher 6 schedNever oracleYes [] [ccFix ""]).total_med = 0 ∧
    (runMatcher 6 schedNever oracleYes [] [ccFix ""]).total_ai = 0 ∧
    (runMatcher 6 schedNever oracleYes [] [ccFix ""]).total_written = 0 ∧
    (runMatcher 6 schedNever oracleYes [] [ccFix ""]).total_rejected = 0 :=
  ⟨by with_unfolding_all rfl, by with_unfolding_all rfl,
   by with_unfolding_all rfl, by with_unfolding_all rfl,
   by with_unfolding_all rfl, by with_unfolding_all rfl⟩

/-- **C2, amended.** After the final drain the totals are an exact
partition once the records the code silently skips are accounted for: for
every schedule and oracle, processed equals the number of query rows;
the per-tier counters count exactly the rows of each class (no record in
two buckets); processed = accepted_high + accepted_medium + escalated +
rejected + skipped, where skipped counts the rows with empty
strongly-normalized name or no candidates (counted in no other bucket);
all jobs have been collected (`pending = []`); and the written total is
accepted_high + accepted_medium + the approved escalations (so the
escalations partition into approved and not-approved-or-failed). -/
theorem C2_totals_partition (K : ℕ) (sched : ℕ → ℕ → Bool)
    (oracle : CcRow → AbrRow → ℚ → JobOutcome)
    (abrRows : List AbrRowIn) (ccRows : List CcRow) :
    (runMatcher K sched oracle abrRows ccRows).total_proc = ccRows.length ∧
    (runMatcher K sched oracle abrRows ccRows).total_high =
      ccRows.countP (fun r =>
        decide (classifyRow (buildIndexes abrRows) r = .high)) ∧
    (runMatcher K sched oracle abrRows ccRows).total_med =
      ccRows.countP (fun r =>
        decide (classifyRow (buildIndexes abrRows) r = .med)) ∧
    (runMatcher K sched oracle abrRows ccRows).total_ai =
      ccRows.countP (fun r =>
        decide (classifyRow (buildIndexes abrRows) r = .esc)) ∧
    (runMatcher K sched oracle abrRows ccRows).total_rejected =
      ccRows.countP (fun r =>
        decide (classifyRow (buildIndexes abrRows) r = .preReject ∨
          classifyRow (buildIndexes abrRows) r = .lowReject)) ∧
    (runMatcher K sched oracle abrRows ccRows).pending = [] ∧
    (runMatcher K sched oracle abrRows ccRows).total_proc =
      (runMatcher K sched oracle abrRows ccRows).total_high +
      (runMatcher K sched oracle abrRows ccRows).total_med +
      (runMatcher K sched oracle abrRows ccRows).total_ai +
      (runMatcher K sched oracle abrRows ccRows).total_rejected +
      ccRows.countP (fun r =>
        decide (classifyRow (buildIndexes abrRows) r = .skipEmpty ∨
          classifyRow (buildIndexes abrRows) r = .skipNoCand)) ∧
    (runMatcher K sched oracle abrRows ccRows).total_written =
      (runMatcher K sched oracle abrRows ccRows).total_high +
      (runMatcher K sched oracle abrRows ccRows).total_med +
      ccRows.countP (fun r =>
        decide (classifyRow (buildIndexes abrRows) r = .esc ∧
          escApproved oracle (buildIndexes abrRows) r = true)) := by
  have hl := loop_acct K sched oracle (buildIndexes abrRows) ccRows {}
  have hf := finalDrain_acct oracle
    (runLoop K sched oracle (buildIndexes abrRows) ccRows)
  have hproc : (runMatcher K sched oracle abrRows ccRows).total_proc =
      ccRows.length := by
    show (runLoop K sched oracle (buildIndexes abrRows) ccRows).total_proc =
      ccRows.length
    rw [show runLoop K sched oracle (buildIndexes abrRows) ccRows =
      ccRows.foldl (step K sched oracle (buildIndexes abrRows)) {} from rfl,
      hl.1]
    exact Nat.zero_add _
  have hhigh : (runMatcher K sched oracle abrRows ccRows).total_high =
      ccRows.countP (fun r =>
        decide (classifyRow (buildIndexes abrRows) r = .high)) := by
    show (runLoop K sched oracle (buildIndexes abrRows) ccRows).total_high = _
    rw [show runLoop K sched oracle (buildIndexes abrRows) ccRows =
      ccRows.foldl (step K sched oracle (buildIndexes abrRows)) {} from rfl,
      hl.2.1]
    exact Nat.zero_add _
  have hmed : (runMatcher K sched oracle abrRows ccRows).total_med =
      ccRows.countP (fun r =>
        decide (classifyRow (buildIndexes abrRows) r = .med)) := by
    show (runLoop K sched oracle (buildIndexes abrRows) ccRows).total_med = _
    rw [show runLoop K sched oracle (buildIndexes abrRows) ccRows =
      ccRows.foldl (step K sched oracle (buildIndexes abrRows)) {} from rfl,
      hl.2.2.1]
    exact Nat.zero_add _
  have hai : (runMatcher K sched oracle abrRows ccRows).total_ai =
      ccRows.countP (fun r =>
        decide (classifyRow (buildIndexes abrRows) r = .esc)) := by
    show (runLoop K sched oracle (buildIndexes abrRows) ccRows).total_ai = _
    rw [show runLoop K sched oracle (buildIndexes abrRows) ccRows =
      ccRows.foldl (step K sched oracle (buildIndexes abrRows)) {} from rfl,
      hl.2.2.2.1]
    exact Nat.zero_add _
  have hrej : (runMatcher K sched oracle abrRows ccRows).total_rejected =
      ccRows.countP (fun r =>
        decide (classifyRow (buildIndexes abrRows) r = .preReject ∨
          classifyRow (buildIndexes abrRows) r = .lowReject)) := by
    show (runLoop K sched oracle
      (buildIndexes abrRows) ccRows).total_rejected = _
    rw [show runLoop K sched oracle (buildIndexes abrRows) ccRows =
      ccRows.foldl (step K sched oracle (buildIndexes abrRows)) {} from rfl,
      hl.2.2.2.2.1]
    exact Nat.zero_add _
  have hwr : (runMatcher K sched oracle abrRows ccRows).total_written =
      ccRows.countP (fun r =>
        decide (classifyRow (buildIndexes abrRows) r = .high)) +
      ccRows.countP (fun r =>
        decide (classifyRow (buildIndexes abrRows) r = .med)) +
      ccRows.countP (fun r =>
        decide (classifyRow (buildIndexes abrRows) r = .esc ∧
          escApproved oracle (buildIndexes abrRows) r = true)) := by
    rw [show (runMatcher K sched oracle abrRows ccRows).total_written =
      (finalDrain oracle
        (runLoop K sched oracle (buildIndexes abrRows) ccRows)).total_written
      from rfl, hf.1]
    have h2 : (runLoop K sched oracle (buildIndexes abrRows) ccRows).total_written +
        (runLoop K sched oracle (buildIndexes abrRows) ccRows).pending.countP
          (jobApproved oracle) =
        0 + 0 +
          ccRows.countP (fun r =>
            decide (classifyRow (buildIndexes abrRows) r = .high)) +
          ccRows.countP (fun r =>
            decide (classifyRow (buildIndexes abrRows) r = .med)) +
          ccRows.countP (fun r =>
            decide (classifyRow (buildIndexes abrRows) r = .esc ∧
              escApproved oracle (buildIndexes abrRows) r = true)) :=
      hl.2.2.2.2.2
    omega
  refine ⟨hproc, hhigh, hmed, hai, hrej, hf.2, ?_, ?_⟩
  · rw [hproc, hhigh, hmed, hai, hrej]
    exact classify_partition (buildIndexes abrRows) ccRows
  · rw [hwr, hhigh, hmed]


/-!
## Idempotence of `strong_normalize`: character-level facts
-/

theorem lowerChar_idem (c : Char) : lowerChar (lowerChar c) = lowerChar c := by
  unfold lowerChar
  split
  · next h =>
    have hv : (c.toNat + 32).isValidChar := by
      have h2 : c.toNat ≤ 90 := h.2
      constructor
      omega
    have ht : (Char.ofNat (c.toNat + 32)).toNat = c.toNat + 32 := by
      unfold Char.ofNat
      rw [dif_pos hv]
      rfl
    rw [if_neg]
    intro hcon
    have h1 : (65 : ℕ) ≤ c.toNat := h.1
    have h3 : (Char.ofNat (c.toNat + 32)).toNat ≤ 90 := hcon.2
    rw [ht] at h3
    omega
  · next h => rfl

theorem isSpaceCh_cases {c : Char} (h : isSpaceCh c = true) :
    c = ' ' ∨ c = '\t' ∨ c = '\n' ∨ c = '\r' ∨ c = '\x0c' ∨ c = '\x0b' := by
  simpa [isSpaceCh, or_assoc] using h

theorem not_word_of_space {c : Char} (h : isSpaceCh c = true) :
    isWordChar c = false := by
  rcases isSpaceCh_cases h with rfl | rfl | rfl | rfl | rfl | rfl <;> decide

theorem not_space_of_word {c : Char} (h : isWordChar c = true) :
    isSpaceCh c = false := by
  by_cases hs : isSpaceCh c = true
  · rw [not_word_of_space hs] at h; exact absurd h (by simp)
  · simpa using hs

theorem wordsOf_cons_word {c : Char} (cs : List Char)
    (h : isWordChar c = true) :
    wordsOf (c :: cs) =
      (c :: cs.takeWhile isWordChar) :: wordsOf (cs.dropWhile isWordChar) := by
  rw [wordsOf, if_pos h]

theorem wordsOf_cons_nonword {c : Char} (cs : List Char)
    (h : isWordChar c = false) :
    wordsOf (c :: cs) = wordsOf cs := by
  rw [wordsOf, if_neg (by simp [h])]

theorem wordsOf_nil_of_nonword {l : List Char}
    (h : ∀ c ∈ l, isWordChar c = false) : wordsOf l = [] := by
  induction l with
  | nil => rw [wordsOf]
  | cons c cs ih =>
    rw [wordsOf_cons_nonword cs (h c (by simp))]
    exact ih fun x hx => h x (by simp [hx])

theorem map_self_of_mem {f : Char → Char} {l : List Char}
    (h : ∀ c ∈ l, f c = c) : l.map f = l := by
  induction l with
  | nil => rfl
  | cons c cs ih =>
    simp only [List.map_cons, h c (by simp), ih fun x hx => h x (by simp [hx])]


/-!
## Word runs are preserved by the post-regex pipeline stages
-/

theorem wordsOf_map_classEq {f : Char → Char}
    (hcl : ∀ c, isWordChar (f c) = isWordChar c)
    (hid : ∀ c, isWordChar c = true → f c = c) :
    ∀ (l : List Char), wordsOf (l.map f) = wordsOf l := by
  have hfun : (isWordChar ∘ f) = isWordChar := funext hcl
  suffices H : ∀ (n : ℕ) (l : List Char), l.length ≤ n →
      wordsOf (l.map f) = wordsOf l by
    exact fun l => H l.length l le_rfl
  intro n
  induction n with
  | zero =>
    intro l hl
    rw [Nat.le_zero, List.length_eq_zero] at hl
    subst hl
    rfl
  | succ n ih =>
    intro l hl
    cases l with
    | nil => rfl
    | cons c cs =>
      simp only [List.length_cons] at hl
      by_cases hw : isWordChar c = true
      · rw [List.map_cons, wordsOf_cons_word _ (by rw [hcl]; exact hw),
          wordsOf_cons_word cs hw, hid c hw]
        have htw : (cs.map f).takeWhile isWordChar =
            cs.takeWhile isWordChar := by
          rw [List.takeWhile_map, hfun]
          exact map_self_of_mem fun x hx =>
            hid x (List.mem_takeWhile_imp hx)
        have hdw : (cs.map f).dropWhile isWordChar =
            (cs.dropWhile isWordChar).map f := by
          rw [List.dropWhile_map, hfun]
        rw [htw, hdw,
          ih (cs.dropWhile isWordChar)
            (le_trans (List.dropWhile_suffix isWordChar).length_le
              (by omega))]
      · simp only [Bool.not_eq_true] at hw
        rw [List.map_cons, wordsOf_cons_nonword _ (by rw [hcl]; exact hw),
          wordsOf_cons_nonword cs hw]
        exact ih cs (by omega)

theorem isWordChar_punctMap (c : Char) :
    isWordChar (punctMap c) = isWordChar c := by
  unfold punctMap
  by_cases hw : isWordChar c = true
  · simp [hw]
  · simp only [Bool.not_eq_true] at hw
    by_cases hs : isSpaceCh c = true
    · simp [hw, hs]
    · simp only [Bool.not_eq_true] at hs
      simp [hw, hs]
      decide

theorem punctMap_word {c : Char} (h : isWordChar c = true) :
    punctMap c = c := by
  simp [punctMap, h]

theorem wordsOf_punctMap (l : List Char) :
    wordsOf (l.map punctMap) = wordsOf l :=
  wordsOf_map_classEq isWordChar_punctMap (fun c => punctMap_word) l

theorem collapseAux_word_run : ∀ (cs : List Char),
    collapseAux false cs =
      cs.takeWhile isWordChar ++
        collapseAux false (cs.dropWhile isWordChar) := by
  intro cs
  induction cs with
  | nil => rfl
  | cons c cs ih =>
    by_cases hw : isWordChar c = true
    · rw [List.takeWhile_cons_of_pos hw, List.dropWhile_cons_of_pos hw]
      show collapseAux false (c :: cs) = _
      rw [collapseAux, if_neg (by simp [not_space_of_word hw])]
      rw [ih]
      simp
    · simp only [Bool.not_eq_true] at hw
      rw [List.takeWhile_cons_of_neg (by simp [hw]),
        List.dropWhile_cons_of_neg (by simp [hw])]
      simp

theorem collapseAux_head_nonword {x : List Char}
    (hx : x = [] ∨ ∃ d r, x = d :: r ∧ isWordChar d = false) :
    collapseAux false x = [] ∨
      ∃ e r', collapseAux false x = e :: r' ∧ isWordChar e = false := by
  rcases hx with rfl | ⟨d, r, rfl, hd⟩
  · left; rfl
  · rw [collapseAux]
    by_cases hs : isSpaceCh d = true
    · rw [if_pos hs]
      right
      exact ⟨' ', collapseAux true r, rfl, by decide⟩
    · rw [if_neg hs]
      right
      exact ⟨d, collapseAux false r, rfl, hd⟩

theorem dropWhile_word_shape (cs : List Char) :
    cs.dropWhile isWordChar = [] ∨
      ∃ d r, cs.dropWhile isWordChar = d :: r ∧ isWordChar d = false := by
  induction cs with
  | nil => left; rfl
  | cons c cs ih =>
    by_cases hw : isWordChar c = true
    · rw [List.dropWhile_cons_of_pos hw]; exact ih
    · simp only [Bool.not_eq_true] at hw
      rw [List.dropWhile_cons_of_neg (by simp [hw])]
      exact Or.inr ⟨c, cs, rfl, hw⟩

theorem wordsOf_collapseAux :
    ∀ (n : ℕ) (cs : List Char), cs.length ≤ n → ∀ (b : Bool),
      wordsOf (collapseAux b cs) = wordsOf cs := by
  intro n
  induction n with
  | zero =>
    intro cs h b
    rw [Nat.le_zero, List.length_eq_zero] at h
    subst h
    cases b <;> rfl
  | succ n ih =>
    intro cs hl b
    cases cs with
    | nil => cases b <;> rfl
    | cons c cs =>
      simp only [List.length_cons] at hl
      by_cases hs : isSpaceCh c = true
      · rw [collapseAux, if_pos hs,
          wordsOf_cons_nonword cs (not_word_of_space hs)]
        cases b with
        | true => exact ih cs (by omega) true
        | false =>
          simp only [Bool.false_eq_true, if_false]
          rw [wordsOf_cons_nonword _ (by decide)]
          exact ih cs (by omega) true
      · by_cases hw : isWordChar c = true
        · rw [collapseAux, if_neg hs]
          rw [wordsOf_cons_word _ hw, wordsOf_cons_word cs hw]
          rw [collapseAux_word_run cs]
          have hall : ∀ a ∈ cs.takeWhile isWordChar, isWordChar a := by
            intro a ha; exact List.mem_takeWhile_imp ha
          have hhead := collapseAux_head_nonword (dropWhile_word_shape cs)
          have htw0 : (collapseAux false
              (cs.dropWhile isWordChar)).takeWhile isWordChar = [] := by
            rcases hhead with h0 | ⟨e, r', h0, he⟩
            · rw [h0]; rfl
            · rw [h0]; exact List.takeWhile_cons_of_neg (by simp [he])
          have hdw0 : (collapseAux false
              (cs.dropWhile isWordChar)).dropWhile isWordChar =
              collapseAux false (cs.dropWhile isWordChar) := by
            rcases hhead with h0 | ⟨e, r', h0, he⟩
            · rw [h0]; rfl
            · rw [h0]; exact List.dropWhile_cons_of_neg (by simp [he])
          rw [List.takeWhile_append_of_pos hall,
            List.dropWhile_append_of_pos hall, htw0, hdw0]
          rw [ih (cs.dropWhile isWordChar)
            (le_trans (List.dropWhile_suffix isWordChar).length_le
              (by omega)) false]
          simp
        · simp only [Bool.not_eq_true] at hw
          rw [collapseAux, if_neg hs, wordsOf_cons_nonword _ hw,
            wordsOf_cons_nonword cs hw]
          exact ih cs (by omega) false

theorem wordsOf_dropWhile_space (l : List Char) :
    wordsOf (l.dropWhile isSpaceCh) = wordsOf l := by
  induction l with
  | nil => rfl
  | cons c cs ih =>
    by_cases hs : isSpaceCh c = true
    · rw [List.dropWhile_cons_of_pos hs, ih,
        wordsOf_cons_nonword cs (not_word_of_space hs)]
    · rw [List.dropWhile_cons_of_neg hs]

theorem wordsOf_append_spaces :
    ∀ (n : ℕ) (x : List Char), x.length ≤ n → ∀ (sp : List Char),
      (∀ c ∈ sp, isSpaceCh c = true) → wordsOf (x ++ sp) = wordsOf x := by
  intro n
  induction n with
  | zero =>
    intro x hx sp hsp
    rw [Nat.le_zero, List.length_eq_zero] at hx
    subst hx
    rw [List.nil_append, wordsOf_nil_of_nonword
      (fun c hc => not_word_of_space (hsp c hc)), wordsOf]
  | succ n ih =>
    intro x hx sp hsp
    have hsp0 : sp.takeWhile isWordChar = [] := by
      cases sp with
      | nil => rfl
      | cons s r =>
        exact List.takeWhile_cons_of_neg
          (by simp [not_word_of_space (hsp s (by simp))])
    have hsp1 : sp.dropWhile isWordChar = sp := by
      cases sp with
      | nil => rfl
      | cons s r =>
        exact List.dropWhile_cons_of_neg
          (by simp [not_word_of_space (hsp s (by simp))])
    cases x with
    | nil =>
      rw [List.nil_append, wordsOf_nil_of_nonword
        (fun c hc => not_word_of_space (hsp c hc)), wordsOf]
    | cons c x =>
      simp only [List.length_cons] at hx
      by_cases hw : isWordChar c = true
      · rw [List.cons_append, wordsOf_cons_word _ hw,
          wordsOf_cons_word x hw]
        have htw : (x ++ sp).takeWhile isWordChar =
            x.takeWhile isWordChar := by
          rw [List.takeWhile_append, hsp0, List.append_nil]
          split
          · next h =>
            exact ((List.takeWhile_sublist isWordChar).eq_of_length h).symm
          · rfl
        have hdw : (x ++ sp).dropWhile isWordChar =
            if (x.dropWhile isWordChar).isEmpty then sp
            else x.dropWhile isWordChar ++ sp := by
          rw [List.dropWhile_append, hsp1]
        rw [htw, hdw]
        split
        · next h =>
          rw [List.isEmpty_iff] at h
          rw [h, wordsOf_nil_of_nonword
            (fun c hc => not_word_of_space (hsp c hc)), wordsOf]
        · rw [ih (x.dropWhile isWordChar)
            (le_trans (List.dropWhile_suffix isWordChar).length_le
              (by omega)) sp hsp]
      · simp only [Bool.not_eq_true] at hw
        rw [List.cons_append, wordsOf_cons_nonword _ hw,
          wordsOf_cons_nonword x hw]
        exact ih x (by omega) sp hsp

theorem wordsOf_stripWS (x : List Char) :
    wordsOf (stripWS x) = wordsOf x := by
  unfold stripWS
  have hsplit : x.dropWhile isSpaceCh =
      ((x.dropWhile isSpaceCh).reverse.dropWhile isSpaceCh).reverse ++
        ((x.dropWhile isSpaceCh).reverse.takeWhile isSpaceCh).reverse := by
    conv_lhs => rw [← List.reverse_reverse (x.dropWhile isSpaceCh),
      ← List.takeWhile_append_dropWhile isSpaceCh
        (x.dropWhile isSpaceCh).reverse]
    rw [List.reverse_append]
  have hsp : ∀ c ∈ ((x.dropWhile isSpaceCh).reverse.takeWhile
      isSpaceCh).reverse, isSpaceCh c = true := by
    intro c hc
    rw [List.mem_reverse] at hc
    exact List.mem_takeWhile_imp hc
  calc wordsOf (((x.dropWhile isSpaceCh).reverse.dropWhile
        isSpaceCh).reverse)
      = wordsOf (((x.dropWhile isSpaceCh).reverse.dropWhile
          isSpaceCh).reverse ++
          ((x.dropWhile isSpaceCh).reverse.takeWhile isSpaceCh).reverse) :=
        (wordsOf_append_spaces _ _ le_rfl _ hsp).symm
    _ = wordsOf (x.dropWhile isSpaceCh) := by rw [← hsplit]
    _ = wordsOf x := wordsOf_dropWhile_space x


/-!
## Characterizing the literal matcher on word runs
-/

theorem getLastD_mem_cons : ∀ (es : List Char) (e : Char),
    es.getLastD e ∈ e :: es
  | [], e => by simp [List.getLastD]
  | x :: xs, e => by
    rw [List.getLastD_cons]
    exact List.mem_cons_of_mem e (getLastD_mem_cons xs x)

theorem litc_self : ∀ (v : List Char) (a : Char) (r : List Char),
    (∀ c ∈ v, lowerChar c = c) → litc v a (v ++ r) = some (v.getLastD a, r) := by
  intro v
  induction v with
  | nil => intro a r _; rfl
  | cons e es ih =>
    intro a r hv
    rw [List.cons_append, litc, if_pos (hv e (by simp)), ih e r
      (fun c hc => hv c (by simp [hc]))]
    rw [List.getLastD_cons]

theorem litc_word_cases :
    ∀ (v w : List Char) (a : Char) (t : List Char),
      (∀ c ∈ w, lowerChar c = c) →
      (∀ e ∈ v, isWordChar e = true) →
      (t = [] ∨ ∃ u, t = ' ' :: u) →
      litc v a (w ++ t) = none ∨
        ∃ w₂, w = v ++ w₂ ∧
          litc v a (w ++ t) = some (v.getLastD a, w₂ ++ t) := by
  intro v
  induction v with
  | nil =>
    intro w a t _ _ _
    right
    exact ⟨w, rfl, rfl⟩
  | cons e es ih =>
    intro w a t hwl hv ht
    cases w with
    | nil =>
      left
      rcases ht with rfl | ⟨u, rfl⟩
      · rfl
      · rw [List.nil_append, litc]
        rw [if_neg]
        intro hcon
        have h1 : lowerChar ' ' = ' ' := by decide
        rw [h1] at hcon
        have := hv e (by simp)
        rw [← hcon] at this
        exact absurd this (by decide)
    | cons c w' =>
      rw [List.cons_append, litc]
      by_cases hc : lowerChar c = e
      · rw [if_pos hc]
        rw [hwl c (by simp)] at hc
        subst hc
        rcases ih w' c t (fun x hx => hwl x (by simp [hx]))
            (fun x hx => hv x (by simp [hx])) ht with h | ⟨w₂, hw₂, h⟩
        · left; exact h
        · right
          refine ⟨w₂, by rw [hw₂, List.cons_append], ?_⟩
          rw [h, List.getLastD_cons]
      · rw [if_neg hc]
        left; rfl

theorem orO_isSome_right {α : Type} {a b : Option α}
    (h : b.isSome = true) : (orO a b).isSome = true := by
  cases a with
  | none => exact h
  | some x => rfl

theorem orO_isSome_left {α : Type} {a b : Option α}
    (h : a.isSome = true) : (orO a b).isSome = true := by
  cases a with
  | none => exact absurd h (by simp)
  | some x => rfl

theorem orO_none {α : Type} {a b : Option α}
    (ha : a = none) (hb : b = none) : orO a b = none := by
  rw [ha, hb]; rfl

theorem foldr_orO_isSome {α : Type}
    {fs : List (List Char → Option α)} {cs : List Char}
    {f : List Char → Option α} (hf : f ∈ fs)
    (h : (f cs).isSome = true) :
    (fs.foldr (fun g acc => orO (g cs) acc) none).isSome = true := by
  induction fs with
  | nil => simp at hf
  | cons g gs ih =>
    rcases List.mem_cons.mp hf with rfl | hmem
    · exact orO_isSome_left h
    · exact orO_isSome_right (ih hmem)

theorem foldr_orO_none {α : Type}
    {fs : List (List Char → Option α)} {cs : List Char}
    (h : ∀ f ∈ fs, f cs = none) :
    fs.foldr (fun g acc => orO (g cs) acc) none = none := by
  induction fs with
  | nil => rfl
  | cons g gs ih =>
    exact orO_none (h g (by simp)) (ih fun f hf => h f (by simp [hf]))

theorem matchAlts_isSome_of_alt {cs : List Char}
    {f : List Char → Option (Char × List Char)} (hf : f ∈ altList)
    (h : (f cs).isSome = true) : (matchAlts cs).isSome = true :=
  foldr_orO_isSome hf h

theorem matchAlts_none_of_all {cs : List Char}
    (h : ∀ f ∈ altList, f cs = none) : matchAlts cs = none :=
  foldr_orO_none h



theorem fin_isSome_of_bound {l : Char} {t : List Char}
    (hl : isWordChar l = true)
    (ht : ∀ d r, t = d :: r → isWordChar d = false) :
    (fin (l, t)).isSome = true := by
  unfold fin wordB
  cases t with
  | nil => simp [hl]
  | cons d r => simp [hl, ht d r rfl]

theorem aLit_isSome_self {v t : List Char}
    (hv : ∀ c ∈ v, lowerChar c = c)
    (hlast : isWordChar (v.getLastD 'x') = true)
    (ht : ∀ d r, t = d :: r → isWordChar d = false) :
    (aLit v (v ++ t)).isSome = true := by
  unfold aLit
  rw [litc_self v 'x' t hv]
  exact fin_isSome_of_bound hlast ht

theorem aLitDot_isSome_self {v t : List Char}
    (hv : ∀ c ∈ v, lowerChar c = c)
    (hlast : isWordChar (v.getLastD 'x') = true)
    (ht : ∀ d r, t = d :: r → isWordChar d = false) :
    (aLitDot v (v ++ t)).isSome = true := by
  unfold aLitDot
  rw [litc_self v 'x' t hv]
  show (optDotFin (v.getLastD 'x', t)).isSome = true
  unfold optDotFin optDot
  exact orO_isSome_right (fin_isSome_of_bound hlast ht)

theorem aLitS_isSome_self {v t : List Char}
    (hv : ∀ c ∈ v, lowerChar c = c)
    (hlast : isWordChar (v.getLastD 'x') = true)
    (ht : ∀ d r, t = d :: r → isWordChar d = false) :
    (aLitS v (v ++ t)).isSome = true := by
  unfold aLitS
  rw [litc_self v 'x' t hv]
  exact orO_isSome_right (fin_isSome_of_bound hlast ht)

theorem aLitS_isSome_s {v t : List Char}
    (hv : ∀ c ∈ v, lowerChar c = c)
    (ht : ∀ d r, t = d :: r → isWordChar d = false) :
    (aLitS v ((v ++ ['s']) ++ t)).isSome = true := by
  unfold aLitS
  rw [List.append_assoc, List.singleton_append,
    litc_self v 'x' ('s' :: t) hv]
  refine orO_isSome_left ?_
  show ((litc ['s'] (v.getLastD 'x') ('s' :: t)).bind fin).isSome = true
  rw [litc, if_pos (by decide), litc]
  exact fin_isSome_of_bound (by decide) ht

theorem aPtyLtd_isSome_self {t : List Char}
    (ht : ∀ d r, t = d :: r → isWordChar d = false) :
    (aPtyLtd ("ptyltd".data ++ t)).isSome = true := by
  have hsplit : "ptyltd".data ++ t = "pty".data ++ ("ltd".data ++ t) := by
    simp
  rw [hsplit]
  unfold aPtyLtd
  rw [litc_self "pty".data 'x' ("ltd".data ++ t) (by decide),
    Option.some_bind]
  unfold optDot
  refine orO_isSome_right ?_
  show ((litc ['l', 't', 'd'] ("pty".data.getLastD 'x')
    (wsDrop ("ltd".data ++ t))).bind optDotFin).isSome = true
  have hws : wsDrop ("ltd".data ++ t) = "ltd".data ++ t := by
    show List.dropWhile isSpaceCh ('l' :: ("td".data ++ t)) = _
    rw [List.dropWhile_cons_of_neg (by decide)]
    simp
  rw [hws, litc_self "ltd".data _ t (by decide), Option.some_bind]
  show (optDotFin ('d', t)).isSome = true
  unfold optDotFin optDot
  exact orO_isSome_right (fin_isSome_of_bound (by decide) ht)

theorem matchAlts_isSome_of_V {w t : List Char} (hw : inV w = true)
    (ht : ∀ d r, t = d :: r → isWordChar d = false) :
    (matchAlts (w ++ t)).isSome = true := by
  have hmem : w ∈ Vlist := by
    unfold inV at hw
    rcases List.contains_iff_exists_mem_beq.mp hw with ⟨a, ha, hbeq⟩
    rw [show w = a from by simpa using hbeq]
    exact ha
  fin_cases hmem
  · exact matchAlts_isSome_of_alt (by simp [altList])
      (aPtyLtd_isSome_self ht)
  · exact matchAlts_isSome_of_alt (f := aLitDot "ltd".data)
      (by simp [altList]) (aLitDot_isSome_self (by decide) (by decide) ht)
  · exact matchAlts_isSome_of_alt (f := aLit "limited".data)
      (by simp [altList]) (aLit_isSome_self (by decide) (by decide) ht)
  · exact matchAlts_isSome_of_alt (f := aLitDot "inc".data)
      (by simp [altList]) (aLitDot_isSome_self (by decide) (by decide) ht)
  · exact matchAlts_isSome_of_alt (f := aLit "incorporated".data)
      (by simp [altList]) (aLit_isSome_self (by decide) (by decide) ht)
  · exact matchAlts_isSome_of_alt (f := aLitDot "corp".data)
      (by simp [altList]) (aLitDot_isSome_self (by decide) (by decide) ht)
  · exact matchAlts_isSome_of_alt (f := aLit "corporation".data)
      (by simp [altList]) (aLit_isSome_self (by decide) (by decide) ht)
  · exact matchAlts_isSome_of_alt (f := aLitS "holding".data)
      (by simp [altList]) (aLitS_isSome_self (by decide) (by decide) ht)
  · refine matchAlts_isSome_of_alt (f := aLitS "holding".data)
      (by simp [altList]) ?_
    rw [show "holdings".data = "holding".data ++ ['s'] from by decide]
    exact aLitS_isSome_s (by decide) ht
  · exact matchAlts_isSome_of_alt (f := aLit "group".data)
      (by simp [altList]) (aLit_isSome_self (by decide) (by decide) ht)
  · exact matchAlts_isSome_of_alt (f := aLit "trust".data)
      (by simp [altList]) (aLit_isSome_self (by decide) (by decide) ht)
  · exact matchAlts_isSome_of_alt (f := aLitS "service".data)
      (by simp [altList]) (aLitS_isSome_self (by decide) (by decide) ht)
  · refine matchAlts_isSome_of_alt (f := aLitS "service".data)
      (by simp [altList]) ?_
    rw [show "services".data = "service".data ++ ['s'] from by decide]
    exact aLitS_isSome_s (by decide) ht
  · exact matchAlts_isSome_of_alt (f := aLitS "solution".data)
      (by simp [altList]) (aLitS_isSome_self (by decide) (by decide) ht)
  · refine matchAlts_isSome_of_alt (f := aLitS "solution".data)
      (by simp [altList]) ?_
    rw [show "solutions".data = "solution".data ++ ['s'] from by decide]
    exact aLitS_isSome_s (by decide) ht
  · exact matchAlts_isSome_of_alt (f := aLit "australia".data)
      (by simp [altList]) (aLit_isSome_self (by decide) (by decide) ht)
  · exact matchAlts_isSome_of_alt (f := aLitDot "aust".data)
      (by simp [altList]) (aLitDot_isSome_self (by decide) (by decide) ht)
  · exact matchAlts_isSome_of_alt (f := aLit "nsw".data)
      (by simp [altList]) (aLit_isSome_self (by decide) (by decide) ht)
  · exact matchAlts_isSome_of_alt (f := aLit "vic".data)
      (by simp [altList]) (aLit_isSome_self (by decide) (by decide) ht)
  · exact matchAlts_isSome_of_alt (f := aLit "qld".data)
      (by simp [altList]) (aLit_isSome_self (by decide) (by decide) ht)
  · exact matchAlts_isSome_of_alt (f := aLit "wa".data)
      (by simp [altList]) (aLit_isSome_self (by decide) (by decide) ht)
  · exact matchAlts_isSome_of_alt (f := aLit "sa".data)
      (by simp [altList]) (aLit_isSome_self (by decide) (by decide) ht)
  · exact matchAlts_isSome_of_alt (f := aLit "tas".data)
      (by simp [altList]) (aLit_isSome_self (by decide) (by decide) ht)
  · exact matchAlts_isSome_of_alt (f := aLit "act".data)
      (by simp [altList]) (aLit_isSome_self (by decide) (by decide) ht)
  · exact matchAlts_isSome_of_alt (f := aLit "nt".data)
      (by simp [altList]) (aLit_isSome_self (by decide) (by decide) ht)


/-!
## Failure of the matcher on non-vocabulary word runs
-/

theorem litc_head_nonword {v : List Char} {a c : Char} {cs : List Char}
    (hv : v ≠ []) (hfirst : isWordChar (v.headD 'x') = true)
    (hc : isWordChar c = false) (hst : lowerChar c = c) :
    litc v a (c :: cs) = none := by
  cases v with
  | nil => exact absurd rfl hv
  | cons e es =>
    simp only [List.headD_cons] at hfirst
    rw [litc, if_neg]
    intro hcon
    rw [hst] at hcon
    rw [hcon, hfirst] at hc
    simp at hc

theorem matchAlts_nonword_head {c : Char} {cs : List Char}
    (hc : isWordChar c = false) (hst : lowerChar c = c) :
    matchAlts (c :: cs) = none := by
  apply matchAlts_none_of_all
  intro f hf
  fin_cases hf <;>
    (simp only [aPtyLtd, aPL, aLit, aLitDot, aLitS]
     rw [litc_head_nonword (by decide) (by decide) hc hst]
     rfl)

theorem fin_none_of_word_word {l d : Char} {r : List Char}
    (hl : isWordChar l = true) (hd : isWordChar d = true) :
    fin (l, d :: r) = none := by
  unfold fin wordB
  simp [hl, hd]

theorem optDot_none
    {k : Char × List Char → Option (Char × List Char)}
    {p : Char × List Char}
    (h1 : ∀ r, p.2 = '.' :: r → k ('.', r) = none)
    (h2 : k p = none) : optDot k p = none := by
  unfold optDot
  apply orO_none _ h2
  rcases p with ⟨a, ts⟩
  cases ts with
  | nil => rfl
  | cons c r =>
    simp only
    by_cases hcdot : c = '.'
    · subst hcdot
      rw [if_pos rfl]
      exact h1 r rfl
    · rw [if_neg hcdot]

theorem word_ne_dot {d : Char} (hd : isWordChar d = true) : d ≠ '.' := by
  intro h
  rw [h] at hd
  exact absurd hd (by decide)

theorem bound_of_shape {t : List Char} (ht : t = [] ∨ ∃ u, t = ' ' :: u) :
    ∀ d r, t = d :: r → isWordChar d = false := by
  intro d r hdr
  rcases ht with rfl | ⟨u, rfl⟩
  · simp at hdr
  · rw [List.cons_eq_cons] at hdr
    rw [← hdr.1]
    decide

theorem getLastD_word {v : List Char} (hvW : ∀ e ∈ v, isWordChar e = true) :
    isWordChar (v.getLastD 'x') = true := by
  cases v with
  | nil => decide
  | cons e es =>
    rw [List.getLastD_cons]
    exact hvW _ (getLastD_mem_cons es e)

theorem aLit_none_of_ne {v w t : List Char}
    (hvW : ∀ e ∈ v, isWordChar e = true)
    (hwW : ∀ c ∈ w, isWordChar c = true) (hwl : ∀ c ∈ w, lowerChar c = c)
    (ht : t = [] ∨ ∃ u, t = ' ' :: u) (hne : w ≠ v) :
    aLit v (w ++ t) = none := by
  unfold aLit
  rcases litc_word_cases v w 'x' t hwl hvW ht with h | ⟨w₂, hw₂, h⟩
  · rw [h]; rfl
  · rw [h, Option.some_bind]
    cases w₂ with
    | nil => exact absurd (by simpa using hw₂) hne
    | cons d r =>
      rw [List.cons_append]
      exact fin_none_of_word_word (getLastD_word hvW)
        (hwW d (by simp [hw₂]))

theorem aLitDot_none_of_ne {v w t : List Char}
    (hvW : ∀ e ∈ v, isWordChar e = true)
    (hwW : ∀ c ∈ w, isWordChar c = true) (hwl : ∀ c ∈ w, lowerChar c = c)
    (ht : t = [] ∨ ∃ u, t = ' ' :: u) (hne : w ≠ v) :
    aLitDot v (w ++ t) = none := by
  unfold aLitDot
  rcases litc_word_cases v w 'x' t hwl hvW ht with h | ⟨w₂, hw₂, h⟩
  · rw [h]; rfl
  · rw [h, Option.some_bind]
    cases w₂ with
    | nil => exact absurd (by simpa using hw₂) hne
    | cons d r =>
      rw [List.cons_append]
      unfold optDotFin
      apply optDot_none
      · intro r' hr'
        rw [List.cons_eq_cons] at hr'
        exact absurd hr'.1 (word_ne_dot (hwW d (by simp [hw₂])))
      · exact fin_none_of_word_word (getLastD_word hvW)
          (hwW d (by simp [hw₂]))

theorem aLitS_none_of_ne {v w t : List Char}
    (hvW : ∀ e ∈ v, isWordChar e = true)
    (hwW : ∀ c ∈ w, isWordChar c = true) (hwl : ∀ c ∈ w, lowerChar c = c)
    (ht : t = [] ∨ ∃ u, t = ' ' :: u) (hne : w ≠ v)
    (hnes : w ≠ v ++ ['s']) :
    aLitS v (w ++ t) = none := by
  unfold aLitS
  rcases litc_word_cases v w 'x' t hwl hvW ht with h | ⟨w₂, hw₂, h⟩
  · rw [h]; rfl
  · rw [h, Option.some_bind]
    cases w₂ with
    | nil => exact absurd (by simpa using hw₂) hne
    | cons d r =>
      rw [List.cons_append]
      apply orO_none
      · by_cases hds : d = 's'
        · subst hds
          rw [litc, if_pos (hwl 's' (by simp [hw₂])), litc,
            Option.some_bind]
          cases r with
          | nil => exact absurd (by simpa using hw₂) hnes
          | cons e r' =>
            rw [List.cons_append]
            exact fin_none_of_word_word (by decide)
              (hwW e (by simp [hw₂]))
        · rw [litc, if_neg (by rw [hwl d (by simp [hw₂])]; exact hds)]
          rfl
      · exact fin_none_of_word_word (getLastD_word hvW)
          (hwW d (by simp [hw₂]))

theorem aPL_none_of_word {w t : List Char}
    (hwW : ∀ c ∈ w, isWordChar c = true) (hwl : ∀ c ∈ w, lowerChar c = c)
    (ht : t = [] ∨ ∃ u, t = ' ' :: u) :
    aPL (w ++ t) = none := by
  unfold aPL
  cases w with
  | nil =>
    rcases ht with rfl | ⟨u, rfl⟩
    · rfl
    · rw [List.nil_append, litc, if_neg (by decide)]
      rfl
  | cons c w' =>
    rw [List.cons_append]
    by_cases hcp : c = 'p'
    · subst hcp
      rw [litc, if_pos (hwl 'p' (by simp))]
      cases w' with
      | nil =>
        rcases ht with rfl | ⟨u, rfl⟩
        · rfl
        · rw [List.nil_append, litc, if_neg (by decide)]
          rfl
      | cons d r =>
        have hdw : isWordChar d = true := hwW d (by simp)
        have hdne : ¬ d = '/' := by
          intro hcon
          rw [hcon] at hdw
          exact absurd hdw (by decide)
        rw [List.cons_append, litc,
          if_neg (by rw [hwl d (by simp)]; exact hdne)]
        rfl
    · rw [litc, if_neg (by rw [hwl c (by simp)]; exact hcp)]
      rfl


theorem dropWhile_space_shape (cs : List Char) :
    cs.dropWhile isSpaceCh = [] ∨
      ∃ d r, cs.dropWhile isSpaceCh = d :: r ∧ isSpaceCh d = false := by
  induction cs with
  | nil => left; rfl
  | cons c cs ih =>
    by_cases hs : isSpaceCh c = true
    · rw [List.dropWhile_cons_of_pos hs]; exact ih
    · simp only [Bool.not_eq_true] at hs
      rw [List.dropWhile_cons_of_neg (by simp [hs])]
      exact Or.inr ⟨c, cs, rfl, hs⟩

theorem aPtyLtd_none_of_good {w t : List Char}
    (hwW : ∀ c ∈ w, isWordChar c = true) (hwl : ∀ c ∈ w, lowerChar c = c)
    (ht : t = [] ∨ ∃ u, t = ' ' :: u)
    (hch : ∀ c ∈ t, isWordChar c = true ∨ c = ' ')
    (hts : ∀ c ∈ t, lowerChar c = c)
    (hne : w ≠ "ptyltd".data) (hnol : "ltd".data ∉ wordsOf t) :
    aPtyLtd (w ++ t) = none := by
  unfold aPtyLtd
  rcases litc_word_cases "pty".data w 'x' t hwl (by decide) ht
    with h | ⟨w₁, hw₁, h⟩
  · rw [h]; rfl
  · rw [h, Option.some_bind]
    apply optDot_none
    · intro r hr
      exfalso
      cases w₁ with
      | cons d r' =>
        rw [List.cons_append, List.cons_eq_cons] at hr
        exact absurd (hwW d (by simp [hw₁])) (by rw [hr.1]; decide)
      | nil =>
        rw [List.nil_append] at hr
        rcases ht with rfl | ⟨u, rfl⟩
        · simp at hr
        · rw [List.cons_eq_cons] at hr
          exact absurd hr.1 (by decide)
    · show (litc ['l', 't', 'd'] ("pty".data.getLastD 'x')
        (wsDrop (w₁ ++ t))).bind optDotFin = none
      cases w₁ with
      | cons d r =>
        have hd : isWordChar d = true := hwW d (by simp [hw₁])
        have hws : wsDrop ((d :: r) ++ t) = (d :: r) ++ t := by
          rw [List.cons_append]
          exact List.dropWhile_cons_of_neg (by simp [not_space_of_word hd])
        rw [hws]
        have hsub : ∀ c ∈ d :: r, isWordChar c = true :=
          fun c hc => hwW c (by simp [hw₁, hc])
        have hsubl : ∀ c ∈ d :: r, lowerChar c = c :=
          fun c hc => hwl c (by simp [hw₁, hc])
        rcases litc_word_cases "ltd".data (d :: r) _ t hsubl (by decide) ht
          with h2 | ⟨w₂, hw₂, h2⟩
        · rw [h2]; rfl
        · rw [h2, Option.some_bind]
          cases w₂ with
          | nil =>
            exfalso
            apply hne
            rw [hw₁, hw₂]
            decide
          | cons e r₂ =>
            rw [List.cons_append]
            unfold optDotFin
            apply optDot_none
            · intro r' hr'
              rw [List.cons_eq_cons] at hr'
              exact absurd (hsub e (by simp [hw₂]))
                (by rw [hr'.1]; decide)
            · exact fin_none_of_word_word (by decide)
                (hsub e (by simp [hw₂]))
      | nil =>
        rw [List.nil_append]
        rcases ht with rfl | ⟨u, rfl⟩
        · rfl
        · rw [show wsDrop (' ' :: u) = u.dropWhile isSpaceCh from
            List.dropWhile_cons_of_pos (by decide)]
          rcases dropWhile_space_shape u with h0 | ⟨d, r, h0, hd⟩
          · rw [h0]; rfl
          · rw [h0]
            have hdmem : d ∈ u := by
              have hmem : d ∈ u.dropWhile isSpaceCh := by rw [h0]; simp
              exact (List.dropWhile_suffix isSpaceCh).sublist.subset hmem
            have hmemt : ∀ c ∈ d :: r, c ∈ ' ' :: u := by
              intro c hc
              have : c ∈ u.dropWhile isSpaceCh := by rw [h0]; exact hc
              exact List.mem_cons_of_mem ' '
                ((List.dropWhile_suffix isSpaceCh).sublist.subset this)
            have hdch : isWordChar d = true := by
              rcases hch d (hmemt d (by simp)) with h1 | h1
              · exact h1
              · rw [h1] at hd
                exact absurd hd (by decide)
            rw [show d :: r = (d :: r).takeWhile isWordChar ++
              (d :: r).dropWhile isWordChar from
              (List.takeWhile_append_dropWhile _ _).symm]
            have hw₂W : ∀ c ∈ (d :: r).takeWhile isWordChar,
                isWordChar c = true := fun c hc => List.mem_takeWhile_imp hc
            have hw₂l : ∀ c ∈ (d :: r).takeWhile isWordChar,
                lowerChar c = c := fun c hc =>
              hts c (hmemt c ((List.takeWhile_sublist _).subset hc))
            have ht₂ : (d :: r).dropWhile isWordChar = [] ∨
                ∃ u', (d :: r).dropWhile isWordChar = ' ' :: u' := by
              rcases dropWhile_word_shape (d :: r) with h1 | ⟨e, r', h1, he⟩
              · left; exact h1
              · right
                have hce : e ∈ ' ' :: u := hmemt e
                  ((List.dropWhile_suffix isWordChar).sublist.subset
                    (by rw [h1]; simp))
                rcases hch e (hce) with h2 | h2
                · rw [h2] at he; simp at he
                · exact ⟨r', by rw [h1, h2]⟩
            rcases litc_word_cases "ltd".data
              ((d :: r).takeWhile isWordChar) _
              ((d :: r).dropWhile isWordChar) hw₂l (by decide) ht₂
              with h2 | ⟨w₃, hw₃, h2⟩
            · rw [h2]; rfl
            · rw [h2, Option.some_bind]
              cases w₃ with
              | nil =>
                exfalso
                apply hnol
                have hwt : wordsOf (' ' :: u) = wordsOf (d :: r) := by
                  rw [wordsOf_cons_nonword u (by decide),
                    ← wordsOf_dropWhile_space u, h0]
                rw [hwt, wordsOf_cons_word r hdch]
                have hltd : "ltd".data = d :: r.takeWhile isWordChar := by
                  rw [show "ltd".data =
                    (d :: r).takeWhile isWordChar from by
                      rw [hw₃]; simp]
                  rw [List.takeWhile_cons_of_pos hdch]
                rw [hltd]
                simp
              | cons e r₃ =>
                rw [List.cons_append]
                unfold optDotFin
                apply optDot_none
                · intro r' hr'
                  rw [List.cons_eq_cons] at hr'
                  exact absurd (hw₂W e (by simp [hw₃]))
                    (by rw [hr'.1]; decide)
                · exact fin_none_of_word_word (by decide)
                    (hw₂W e (by simp [hw₃]))

theorem matchAlts_none_of_goodWord {w t : List Char}
    (hwW : ∀ c ∈ w, isWordChar c = true) (hwl : ∀ c ∈ w, lowerChar c = c)
    (ht : t = [] ∨ ∃ u, t = ' ' :: u)
    (hch : ∀ c ∈ t, isWordChar c = true ∨ c = ' ')
    (hts : ∀ c ∈ t, lowerChar c = c)
    (hV : inV w = false) (hnol : "ltd".data ∉ wordsOf t) :
    matchAlts (w ++ t) = none := by
  have hneV : ∀ v, v ∈ Vlist → w ≠ v := by
    intro v hv hcon
    subst hcon
    have : inV w = true := by
      unfold inV
      exact List.contains_iff_exists_mem_beq.mpr ⟨w, hv, by simp⟩
    rw [this] at hV
    simp at hV
  apply matchAlts_none_of_all
  intro f hf
  fin_cases hf
  · exact aPtyLtd_none_of_good hwW hwl ht hch hts
      (hneV _ (by decide)) hnol
  · exact aPL_none_of_word hwW hwl ht
  · exact aLitDot_none_of_ne (by decide) hwW hwl ht (hneV _ (by decide))
  · exact aLit_none_of_ne (by decide) hwW hwl ht (hneV _ (by decide))
  · exact aLitDot_none_of_ne (by decide) hwW hwl ht (hneV _ (by decide))
  · exact aLit_none_of_ne (by decide) hwW hwl ht (hneV _ (by decide))
  · exact aLitDot_none_of_ne (by decide) hwW hwl ht (hneV _ (by decide))
  · exact aLit_none_of_ne (by decide) hwW hwl ht (hneV _ (by decide))
  · exact aLitS_none_of_ne (by decide) hwW hwl ht (hneV _ (by decide))
      (by rw [show "holding".data ++ ['s'] = "holdings".data from by decide]
          exact hneV _ (by decide))
  · exact aLit_none_of_ne (by decide) hwW hwl ht (hneV _ (by decide))
  · exact aLit_none_of_ne (by decide) hwW hwl ht (hneV _ (by decide))
  · exact aLitS_none_of_ne (by decide) hwW hwl ht (hneV _ (by decide))
      (by rw [show "service".data ++ ['s'] = "services".data from by decide]
          exact hneV _ (by decide))
  · exact aLitS_none_of_ne (by decide) hwW hwl ht (hneV _ (by decide))
      (by rw [show "solution".data ++ ['s'] = "solutions".data from by decide]
          exact hneV _ (by decide))
  · exact aLit_none_of_ne (by decide) hwW hwl ht (hneV _ (by decide))
  · exact aLitDot_none_of_ne (by decide) hwW hwl ht (hneV _ (by decide))
  · exact aLit_none_of_ne (by decide) hwW hwl ht (hneV _ (by decide))
  · exact aLit_none_of_ne (by decide) hwW hwl ht (hneV _ (by decide))
  · exact aLit_none_of_ne (by decide) hwW hwl ht (hneV _ (by decide))
  · exact aLit_none_of_ne (by decide) hwW hwl ht (hneV _ (by decide))
  · exact aLit_none_of_ne (by decide) hwW hwl ht (hneV _ (by decide))
  · exact aLit_none_of_ne (by decide) hwW hwl ht (hneV _ (by decide))
  · exact aLit_none_of_ne (by decide) hwW hwl ht (hneV _ (by decide))
  · exact aLit_none_of_ne (by decide) hwW hwl ht (hneV _ (by decide))


/-!
## The scan never emits a vocabulary word

Facts about successful matches: the matched span ends at a word boundary
(`wordB`), and the remaining input is a suffix of the original.
-/

theorem fin_wordB {p q : Char × List Char} (h : fin p = some q) :
    wordB q.1 q.2 = true := by
  unfold fin at h
  split at h
  · next hc =>
    rw [Option.some_inj.mp h] at hc
    exact hc
  · exact absurd h (by simp)

theorem bind_fin_wordB {o : Option (Char × List Char)}
    {q : Char × List Char} (h : o.bind fin = some q) :
    wordB q.1 q.2 = true := by
  cases o with
  | none => exact absurd h (by simp)
  | some p => exact fin_wordB h

theorem optDotFin_wordB {p q : Char × List Char}
    (h : optDotFin p = some q) : wordB q.1 q.2 = true := by
  unfold optDotFin at h
  rcases optDot_eq_some_cases h with ⟨r, _, h1⟩ | h1
  · exact fin_wordB h1
  · exact fin_wordB h1

theorem bind_optDotFin_wordB {o : Option (Char × List Char)}
    {q : Char × List Char} (h : o.bind optDotFin = some q) :
    wordB q.1 q.2 = true := by
  cases o with
  | none => exact absurd h (by simp)
  | some p => exact optDotFin_wordB h

theorem matchAlts_wordB {cs : List Char} {p : Char × List Char}
    (h : matchAlts cs = some p) : wordB p.1 p.2 = true := by
  unfold matchAlts at h
  rcases foldr_orO_eq_some h with ⟨f, hf, hp⟩
  fin_cases hf
  · -- aPtyLtd
    unfold aPtyLtd at hp
    rcases Option.bind_eq_some.mp hp with ⟨q, _, hrest⟩
    rcases optDot_eq_some_cases hrest with ⟨r, _, h2⟩ | h2
    · exact bind_optDotFin_wordB h2
    · exact bind_optDotFin_wordB h2
  · unfold aPL at hp
    exact bind_fin_wordB hp
  all_goals
    first
    | (unfold aLitDot at hp
       exact bind_optDotFin_wordB hp)
    | (unfold aLitS at hp
       rcases Option.bind_eq_some.mp hp with ⟨q, _, hrest⟩
       rcases orO_eq_some_cases hrest with h2 | h2
       exacts [bind_fin_wordB h2, fin_wordB h2])
    | (unfold aLit at hp
       exact bind_fin_wordB hp)

theorem litc_suffix : ∀ {v : List Char} {a : Char} {cs : List Char}
    {p : Char × List Char}, litc v a cs = some p → p.2 <:+ cs := by
  intro v
  induction v with
  | nil =>
    intro a cs p h
    rw [show p = (a, cs) from (Option.some_inj.mp h).symm]
  | cons e es ih =>
    intro a cs p h
    cases cs with
    | nil => exact absurd h (by simp [litc])
    | cons c cs' =>
      rw [litc] at h
      split at h
      · exact (ih h).trans (List.suffix_cons c cs')
      · exact absurd h (by simp)

theorem fin_suffix {p q : Char × List Char} (h : fin p = some q) :
    q.2 <:+ p.2 := by
  rw [fin_eq h]

theorem bind_fin_suffix {o : Option (Char × List Char)} {cs : List Char}
    {q : Char × List Char} (ho : ∀ r, o = some r → r.2 <:+ cs)
    (h : o.bind fin = some q) : q.2 <:+ cs := by
  cases o with
  | none => exact absurd h (by simp)
  | some p => exact (fin_suffix h).trans (ho p rfl)

theorem optDotFin_suffix {p q : Char × List Char}
    (h : optDotFin p = some q) : q.2 <:+ p.2 := by
  unfold optDotFin at h
  rcases optDot_eq_some_cases h with ⟨r, hr, h1⟩ | h1
  · rw [hr]
    exact (fin_suffix h1).trans (List.suffix_cons '.' r)
  · exact fin_suffix h1

theorem bind_optDotFin_suffix {o : Option (Char × List Char)}
    {cs : List Char} {q : Char × List Char}
    (ho : ∀ r, o = some r → r.2 <:+ cs)
    (h : o.bind optDotFin = some q) : q.2 <:+ cs := by
  cases o with
  | none => exact absurd h (by simp)
  | some p => exact (optDotFin_suffix h).trans (ho p rfl)

theorem wsDrop_suffix (cs : List Char) : wsDrop cs <:+ cs :=
  List.dropWhile_suffix isSpaceCh

theorem matchAlts_suffix {cs : List Char} {p : Char × List Char}
    (h : matchAlts cs = some p) : p.2 <:+ cs := by
  unfold matchAlts at h
  rcases foldr_orO_eq_some h with ⟨f, hf, hp⟩
  fin_cases hf
  · unfold aPtyLtd at hp
    rcases Option.bind_eq_some.mp hp with ⟨q, hq, hrest⟩
    have hq2 : q.2 <:+ cs := litc_suffix hq
    rcases optDot_eq_some_cases hrest with ⟨r, hr, h2⟩ | h2
    · refine bind_optDotFin_suffix (fun s hs => ?_) h2
      have h3 : s.2 <:+ wsDrop r := litc_suffix hs
      refine (h3.trans (wsDrop_suffix r)).trans ?_
      exact ((List.suffix_cons '.' r).trans (hr ▸ hq2))
    · refine bind_optDotFin_suffix (fun s hs => ?_) h2
      exact ((litc_suffix hs).trans (wsDrop_suffix q.2)).trans hq2
  · unfold aPL at hp
    exact bind_fin_suffix (fun r hr => litc_suffix hr) hp
  all_goals
    first
    | (unfold aLitDot at hp
       exact bind_optDotFin_suffix (fun r hr => litc_suffix hr) hp)
    | (unfold aLitS at hp
       rcases Option.bind_eq_some.mp hp with ⟨q, hq, hrest⟩
       rcases orO_eq_some_cases hrest with h2 | h2
       exacts [bind_fin_suffix
           (fun s hs => (litc_suffix hs).trans (litc_suffix hq)) h2,
         (fin_suffix h2).trans (litc_suffix hq)])
    | (unfold aLit at hp
       exact bind_fin_suffix (fun r hr => litc_suffix hr) hp)

theorem subAllF_subset : ∀ (fuel : ℕ) (b : Bool) (u : List Char),
    ∀ c ∈ subAllF fuel b u, c ∈ u := by
  intro fuel
  induction fuel with
  | zero => intro b u c hc; rw [subAllF] at hc; simp at hc
  | succ fuel ih =>
    intro b u c hc
    cases u with
    | nil => rw [subAllF_nil] at hc; simp at hc
    | cons d u' =>
      rw [subAllF] at hc
      split at hc
      · rcases List.mem_cons.mp hc with rfl | hc'
        · simp
        · exact List.mem_cons_of_mem d (ih _ u' c hc')
      · revert hc
        match hm : matchAlts (d :: u') with
        | some (l, rest) =>
          intro hc
          exact (matchAlts_suffix hm).sublist.subset (ih _ rest c hc)
        | none =>
          intro hc
          rcases List.mem_cons.mp hc with rfl | hc'
          · simp
          · exact List.mem_cons_of_mem d (ih _ u' c hc')

theorem takeWhile_subAllF_true : ∀ (fuel : ℕ) (cs : List Char),
    cs.length ≤ fuel →
    (subAllF fuel true cs).takeWhile isWordChar =
      cs.takeWhile isWordChar := by
  intro fuel
  induction fuel with
  | zero =>
    intro cs h
    rw [Nat.le_zero, List.length_eq_zero] at h
    subst h
    rfl
  | succ fuel ih =>
    intro cs h
    cases cs with
    | nil => rfl
    | cons c cs' =>
      simp only [List.length_cons] at h
      show (c :: subAllF fuel (isWordChar c) cs').takeWhile isWordChar = _
      by_cases hw : isWordChar c = true
      · rw [List.takeWhile_cons_of_pos hw, List.takeWhile_cons_of_pos hw,
          hw, ih cs' (by omega)]
      · simp only [Bool.not_eq_true] at hw
        rw [List.takeWhile_cons_of_neg (by simp [hw]),
          List.takeWhile_cons_of_neg (by simp [hw])]


theorem scan_no_V : ∀ (fuel : ℕ) (u : List Char) (prevW : Bool),
    u.length ≤ fuel →
    ∀ w ∈ safeWords prevW (subAllF fuel prevW u), inV w = false := by
  intro fuel
  induction fuel with
  | zero =>
    intro u prevW h w hw
    rw [Nat.le_zero, List.length_eq_zero] at h
    subst h
    rw [subAllF_nil] at hw
    unfold safeWords at hw
    split at hw
    · rw [show (([] : List Char).dropWhile isWordChar) = [] from rfl,
        wordsOf] at hw
      simp at hw
    · rw [wordsOf] at hw
      simp at hw
  | succ fuel ih =>
    intro u prevW h w hw
    cases u with
    | nil =>
      rw [subAllF_nil] at hw
      unfold safeWords at hw
      split at hw
      · rw [show (([] : List Char).dropWhile isWordChar) = [] from rfl,
          wordsOf] at hw
        simp at hw
      · rw [wordsOf] at hw
        simp at hw
    | cons c cs =>
      simp only [List.length_cons] at h
      cases prevW with
      | true =>
        rw [show subAllF (fuel + 1) true (c :: cs) =
          c :: subAllF fuel (isWordChar c) cs from rfl] at hw
        unfold safeWords at hw
        rw [if_pos rfl] at hw
        by_cases hc : isWordChar c = true
        · rw [List.dropWhile_cons_of_pos hc, hc] at hw
          have := ih cs true (by omega) w
          unfold safeWords at this
          rw [if_pos rfl] at this
          exact this hw
        · simp only [Bool.not_eq_true] at hc
          rw [List.dropWhile_cons_of_neg (by simp [hc]),
            wordsOf_cons_nonword _ hc, hc] at hw
          have := ih cs false (by omega) w
          unfold safeWords at this
          rw [if_neg (by simp)] at this
          exact this hw
      | false =>
        unfold safeWords at hw
        rw [if_neg (by simp)] at hw
        revert hw
        rw [show subAllF (fuel + 1) false (c :: cs) =
          match matchAlts (c :: cs) with
          | some (l, rest) => subAllF fuel (isWordChar l) rest
          | none => c :: subAllF fuel (isWordChar c) cs from rfl]
        match hm : matchAlts (c :: cs) with
        | some (l, rest) =>
          intro hw
          simp only at hw
          have hlen : rest.length ≤ fuel := by
            have := matchAlts_length hm
            simp only [List.length_cons] at this
            omega
          by_cases hwl : isWordChar l = true
          · have hbd := matchAlts_wordB hm
            unfold wordB at hbd
            cases rest with
            | nil =>
              rw [hwl, subAllF_nil, wordsOf] at hw
              simp at hw
            | cons d r' =>
              have hd : isWordChar d = false := by
                rw [hwl] at hbd
                simp only at hbd
                cases hdw : isWordChar d
                · rfl
                · rw [hdw] at hbd; simp at hbd
              have := ih (d :: r') true hlen w
              unfold safeWords at this
              rw [if_pos rfl] at this
              apply this
              rw [hwl] at hw
              cases fuel with
              | zero => simp at hlen
              | succ fuel' =>
                rw [show subAllF (fuel' + 1) true (d :: r') =
                  d :: subAllF fuel' (isWordChar d) r' from rfl] at hw ⊢
                rw [List.dropWhile_cons_of_neg (by simp [hd]),
                  wordsOf_cons_nonword _ hd]
                rw [wordsOf_cons_nonword _ hd] at hw
                exact hw
          · simp only [Bool.not_eq_true] at hwl
            rw [hwl] at hw
            have := ih rest false hlen w
            unfold safeWords at this
            rw [if_neg (by simp)] at this
            exact this hw
        | none =>
          intro hw
          simp only at hw
          by_cases hc : isWordChar c = true
          · rw [wordsOf_cons_word _ hc, hc,
              takeWhile_subAllF_true fuel cs (by omega)] at hw
            rcases List.mem_cons.mp hw with rfl | hw'
            · by_cases hv : inV (c :: cs.takeWhile isWordChar) = true
              · exfalso
                have hbd : ∀ d r, cs.dropWhile isWordChar = d :: r →
                    isWordChar d = false := by
                  intro d r hdr
                  rcases dropWhile_word_shape cs with h0 | ⟨e, r', h0, he⟩
                  · rw [h0] at hdr; simp at hdr
                  · rw [h0] at hdr
                    rw [List.cons_eq_cons] at hdr
                    rw [← hdr.1]
                    exact he
                have hsome := matchAlts_isSome_of_V hv hbd
                have hsplit : (c :: cs.takeWhile isWordChar) ++
                    cs.dropWhile isWordChar = c :: cs := by
                  rw [List.cons_append,
                    List.takeWhile_append_dropWhile]
                rw [hsplit, hm] at hsome
                simp at hsome
              · simpa using hv
            · have := ih cs true (by omega) w
              unfold safeWords at this
              rw [if_pos rfl] at this
              exact this hw'
          · simp only [Bool.not_eq_true] at hc
            rw [wordsOf_cons_nonword _ hc, hc] at hw
            have := ih cs false (by omega) w
            unfold safeWords at this
            rw [if_neg (by simp)] at this
            exact this hw


/-!
## On already-normalized text the scan is the identity
-/

theorem subAllF_id_of_good : ∀ (fuel : ℕ) (cs : List Char) (prevW : Bool),
    cs.length ≤ fuel →
    (∀ c ∈ cs, isWordChar c = true ∨ c = ' ') →
    (∀ c ∈ cs, lowerChar c = c) →
    (∀ w ∈ safeWords prevW cs, inV w = false) →
    subAllF fuel prevW cs = cs := by
  intro fuel
  induction fuel with
  | zero =>
    intro cs prevW h _ _ _
    rw [Nat.le_zero, List.length_eq_zero] at h
    subst h
    rw [subAllF_nil]
  | succ fuel ih =>
    intro cs prevW h hch hst hV
    cases cs with
    | nil => rw [subAllF_nil]
    | cons c cs' =>
      simp only [List.length_cons] at h
      have hch' : ∀ x ∈ cs', isWordChar x = true ∨ x = ' ' :=
        fun x hx => hch x (by simp [hx])
      have hst' : ∀ x ∈ cs', lowerChar x = x :=
        fun x hx => hst x (by simp [hx])
      cases prevW with
      | true =>
        show c :: subAllF fuel (isWordChar c) cs' = c :: cs'
        refine congrArg (c :: ·) (ih cs' (isWordChar c) (by omega)
          hch' hst' ?_)
        intro w hw
        apply hV w
        unfold safeWords at hw ⊢
        rw [if_pos rfl]
        by_cases hc : isWordChar c = true
        · rw [hc] at hw
          rw [if_pos rfl] at hw
          rw [List.dropWhile_cons_of_pos hc]
          exact hw
        · simp only [Bool.not_eq_true] at hc
          rw [hc] at hw
          rw [if_neg (by simp)] at hw
          rw [List.dropWhile_cons_of_neg (by simp [hc]),
            wordsOf_cons_nonword _ hc]
          exact hw
      | false =>
        have hVlist : ∀ w ∈ wordsOf (c :: cs'), inV w = false := by
          intro w hw
          apply hV w
          unfold safeWords
          rw [if_neg (by simp)]
          exact hw
        have hmatch : matchAlts (c :: cs') = none := by
          by_cases hc : isWordChar c = true
          · have hsplit : c :: cs' = (c :: cs'.takeWhile isWordChar) ++
                cs'.dropWhile isWordChar := by
              rw [List.cons_append, List.takeWhile_append_dropWhile]
            rw [hsplit]
            have htshape : cs'.dropWhile isWordChar = [] ∨
                ∃ u, cs'.dropWhile isWordChar = ' ' :: u := by
              rcases dropWhile_word_shape cs' with h0 | ⟨e, r, h0, he⟩
              · left; exact h0
              · right
                have hce : e ∈ cs' :=
                  (List.dropWhile_suffix isWordChar).sublist.subset
                    (by rw [h0]; simp)
                rcases hch' e hce with h1 | h1
                · rw [h1] at he; simp at he
                · exact ⟨r, by rw [h0, h1]⟩
            apply matchAlts_none_of_goodWord
            · intro x hx
              rcases List.mem_cons.mp hx with rfl | hx'
              · exact hc
              · exact List.mem_takeWhile_imp hx'
            · intro x hx
              rcases List.mem_cons.mp hx with rfl | hx'
              · exact hst x (by simp)
              · exact hst' x ((List.takeWhile_sublist _).subset hx')
            · exact htshape
            · exact fun x hx => hch' x
                ((List.dropWhile_suffix isWordChar).sublist.subset hx)
            · exact fun x hx => hst' x
                ((List.dropWhile_suffix isWordChar).sublist.subset hx)
            · apply hVlist
              rw [wordsOf_cons_word _ hc]
              simp
            · intro hcon
              have : inV "ltd".data = false := by
                apply hVlist
                rw [wordsOf_cons_word _ hc]
                exact List.mem_cons_of_mem _ hcon
              rw [show inV "ltd".data = true from by decide] at this
              simp at this
          · simp only [Bool.not_eq_true] at hc
            exact matchAlts_nonword_head hc (hst c (by simp))
        rw [show subAllF (fuel + 1) false (c :: cs') =
          match matchAlts (c :: cs') with
          | some (l, rest) => subAllF fuel (isWordChar l) rest
          | none => c :: subAllF fuel (isWordChar c) cs' from rfl,
          hmatch]
        show c :: subAllF fuel (isWordChar c) cs' = c :: cs'
        refine congrArg (c :: ·) (ih cs' (isWordChar c) (by omega)
          hch' hst' ?_)
        intro w hw
        unfold safeWords at hw
        by_cases hc : isWordChar c = true
        · rw [hc, if_pos rfl] at hw
          apply hVlist
          rw [wordsOf_cons_word _ hc]
          exact List.mem_cons_of_mem _ hw
        · simp only [Bool.not_eq_true] at hc
          rw [hc, if_neg (by simp)] at hw
          apply hVlist
          rw [wordsOf_cons_nonword _ hc]
          exact hw


/-!
## Shape of the pipeline output, and the remaining stages as fixed points
-/

theorem collapseAux_mem : ∀ (x : List Char) (b : Bool) (c : Char),
    c ∈ collapseAux b x → c = ' ' ∨ (c ∈ x ∧ isSpaceCh c = false) := by
  intro x
  induction x with
  | nil => intro b c hc; simp [collapseAux] at hc
  | cons d x' ih =>
    intro b c hc
    rw [collapseAux] at hc
    by_cases hs : isSpaceCh d = true
    · rw [if_pos hs] at hc
      cases b with
      | true =>
        rcases ih true c hc with h | ⟨h1, h2⟩
        · exact Or.inl h
        · exact Or.inr ⟨by simp [h1], h2⟩
      | false =>
        simp only [Bool.false_eq_true, if_false] at hc
        rcases List.mem_cons.mp hc with rfl | hc'
        · exact Or.inl rfl
        · rcases ih true c hc' with h | ⟨h1, h2⟩
          · exact Or.inl h
          · exact Or.inr ⟨by simp [h1], h2⟩
    · rw [if_neg hs] at hc
      rcases List.mem_cons.mp hc with rfl | hc'
      · exact Or.inr ⟨by simp, by simpa using hs⟩
      · rcases ih false c hc' with h | ⟨h1, h2⟩
        · exact Or.inl h
        · exact Or.inr ⟨by simp [h1], h2⟩

theorem stripWS_mem {x : List Char} {c : Char} (h : c ∈ stripWS x) :
    c ∈ x := by
  unfold stripWS at h
  rw [List.mem_reverse] at h
  have h1 := (List.dropWhile_suffix isSpaceCh).sublist.subset h
  rw [List.mem_reverse] at h1
  exact (List.dropWhile_suffix isSpaceCh).sublist.subset h1

theorem punctMap_class (d : Char) :
    isWordChar (punctMap d) = true ∨ isSpaceCh (punctMap d) = true := by
  unfold punctMap
  by_cases hw : isWordChar d = true
  · rw [if_neg (by simp [hw])]
    exact Or.inl hw
  · by_cases hs : isSpaceCh d = true
    · rw [if_neg (by simp [hs])]
      exact Or.inr hs
    · simp only [Bool.not_eq_true] at hw hs
      rw [if_pos (by simp [hw, hs])]
      exact Or.inr (by decide)

theorem punctMap_stable {d : Char} (hd : lowerChar d = d) :
    lowerChar (punctMap d) = punctMap d := by
  unfold punctMap
  split
  · decide
  · exact hd


theorem collapseAux_okSp : ∀ (x : List Char),
    okSp true (collapseAux true x) = true ∧
      okSp false (collapseAux false x) = true := by
  intro x
  induction x with
  | nil => exact ⟨rfl, rfl⟩
  | cons c x' ih =>
    constructor
    · rw [collapseAux]
      by_cases hs : isSpaceCh c = true
      · rw [if_pos hs]
        exact ih.1
      · rw [if_neg hs, okSp, if_neg hs]
        exact ih.2
    · rw [collapseAux]
      by_cases hs : isSpaceCh c = true
      · rw [if_pos hs]
        simp only [Bool.false_eq_true, if_false]
        rw [okSp, if_pos (by decide)]
        simp only [Bool.not_false, Bool.true_and]
        rw [ih.1]
        simp
      · rw [if_neg hs, okSp, if_neg hs]
        exact ih.2

theorem okSp_collapse_id : ∀ (x : List Char),
    (okSp false x = true → collapseAux false x = x) ∧
      (okSp true x = true → collapseAux true x = x) := by
  intro x
  induction x with
  | nil => exact ⟨fun _ => rfl, fun _ => rfl⟩
  | cons c x' ih =>
    constructor
    · intro h
      rw [okSp] at h
      by_cases hs : isSpaceCh c = true
      · rw [if_pos hs] at h
        simp only [Bool.not_false, Bool.true_and, Bool.and_eq_true,
          decide_eq_true_eq] at h
        rw [collapseAux, if_pos hs]
        simp only [Bool.false_eq_true, if_false]
        rw [ih.2 h.2, h.1]
      · rw [if_neg hs] at h
        rw [collapseAux, if_neg hs, ih.1 h]
    · intro h
      rw [okSp] at h
      by_cases hs : isSpaceCh c = true
      · rw [if_pos hs] at h
        simp at h
      · rw [if_neg hs] at h
        rw [collapseAux, if_neg hs, ih.1 h]

theorem okSp_append_left : ∀ (x : List Char) (y : List Char) (b : Bool),
    okSp b (x ++ y) = true → okSp b x = true := by
  intro x
  induction x with
  | nil => intro y b _; rfl
  | cons c x' ih =>
    intro y b h
    rw [List.cons_append, okSp] at h
    rw [okSp]
    by_cases hs : isSpaceCh c = true
    · rw [if_pos hs] at h ⊢
      simp only [Bool.and_eq_true] at h ⊢
      exact ⟨h.1, ih y true h.2⟩
    · rw [if_neg hs] at h ⊢
      exact ih y false h

theorem okSp_dropWhile_space : ∀ (x : List Char),
    okSp false x = true → okSp false (x.dropWhile isSpaceCh) = true := by
  intro x
  induction x with
  | nil => intro _; rfl
  | cons c x' ih =>
    intro h
    rw [okSp] at h
    by_cases hs : isSpaceCh c = true
    · rw [if_pos hs] at h
      simp only [Bool.not_false, Bool.true_and, Bool.and_eq_true,
        decide_eq_true_eq] at h
      rw [List.dropWhile_cons_of_pos hs]
      cases x' with
      | nil => rfl
      | cons d r =>
        rw [okSp] at h
        by_cases hd : isSpaceCh d = true
        · rw [if_pos hd] at h
          simp at h
        · rw [if_neg hd] at h
          rw [List.dropWhile_cons_of_neg hd, okSp, if_neg hd]
          exact h.2
    · rw [if_neg hs] at h
      rw [List.dropWhile_cons_of_neg hs, okSp, if_neg hs]
      exact h

theorem stripWS_decomp (x : List Char) :
    ∃ sp, (∀ c ∈ sp, isSpaceCh c = true) ∧
      x.dropWhile isSpaceCh = stripWS x ++ sp := by
  refine ⟨((x.dropWhile isSpaceCh).reverse.takeWhile isSpaceCh).reverse,
    ?_, ?_⟩
  · intro c hc
    rw [List.mem_reverse] at hc
    exact List.mem_takeWhile_imp hc
  · unfold stripWS
    conv_lhs => rw [← List.reverse_reverse (x.dropWhile isSpaceCh),
      ← List.takeWhile_append_dropWhile isSpaceCh
        (x.dropWhile isSpaceCh).reverse]
    rw [List.reverse_append]

theorem okSp_stripWS {x : List Char} (h : okSp false x = true) :
    okSp false (stripWS x) = true := by
  rcases stripWS_decomp x with ⟨sp, _, hdec⟩
  have h1 := okSp_dropWhile_space x h
  rw [hdec] at h1
  exact okSp_append_left _ sp false h1

theorem dropWhile_init_fixed {p : Char → Bool} :
    ∀ {a q s : List Char}, a.dropWhile p = a → q ++ s = a →
      q.dropWhile p = q := by
  intro a q s ha hq
  cases q with
  | nil => rfl
  | cons c q' =>
    have hc : p c = false := by
      by_cases hpc : p c = true
      · exfalso
        rw [← hq, List.cons_append, List.dropWhile_cons_of_pos hpc] at ha
        have := congrArg List.length ha
        have hle := List.Sublist.length_le
          (List.dropWhile_sublist (l := q' ++ s) (p := p))
        simp only [List.length_cons] at this
        omega
      · simpa using hpc
    exact List.dropWhile_cons_of_neg (by simp [hc])

theorem stripWS_idem (x : List Char) : stripWS (stripWS x) = stripWS x := by
  have h1 : (stripWS x).dropWhile isSpaceCh = stripWS x := by
    rcases stripWS_decomp x with ⟨sp, _, hdec⟩
    exact dropWhile_init_fixed (List.dropWhile_idempotent _ _) hdec.symm
  show (((stripWS x).dropWhile isSpaceCh).reverse.dropWhile
    isSpaceCh).reverse = stripWS x
  rw [h1]
  show ((((x.dropWhile isSpaceCh).reverse.dropWhile
    isSpaceCh).reverse).reverse.dropWhile isSpaceCh).reverse = _
  rw [List.reverse_reverse, List.dropWhile_idempotent]
  rfl


theorem normList_fixed (ds : List Char) :
    stripWS (collapseAux false (List.map punctMap (subAll false
      ((stripWS (collapseAux false (List.map punctMap (subAll false
        (ds.map lowerChar))))).map lowerChar)))) =
    stripWS (collapseAux false (List.map punctMap (subAll false
      (ds.map lowerChar)))) := by
  set u := ds.map lowerChar with hu
  set z := List.map punctMap (subAll false u) with hz
  set y := stripWS (collapseAux false z) with hyy
  have hust : ∀ c ∈ u, lowerChar c = c := by
    intro c hc
    rw [hu] at hc
    rcases List.mem_map.mp hc with ⟨e, _, rfl⟩
    exact lowerChar_idem e
  have hyz : ∀ c ∈ y, c = ' ' ∨ (c ∈ z ∧ isSpaceCh c = false) :=
    fun c hc => collapseAux_mem z false c (stripWS_mem hc)
  have hych : ∀ c ∈ y, isWordChar c = true ∨ c = ' ' := by
    intro c hc
    rcases hyz c hc with h | ⟨h1, h2⟩
    · exact Or.inr h
    · rw [hz] at h1
      rcases List.mem_map.mp h1 with ⟨d, _, rfl⟩
      rcases punctMap_class d with h3 | h3
      · exact Or.inl h3
      · rw [h3] at h2; simp at h2
  have hyst : ∀ c ∈ y, lowerChar c = c := by
    intro c hc
    rcases hyz c hc with h | ⟨h1, _⟩
    · rw [h]; decide
    · rw [hz] at h1
      rcases List.mem_map.mp h1 with ⟨d, hd, rfl⟩
      exact punctMap_stable (hust d (subAllF_subset u.length false u d hd))
  have hwords : wordsOf y = wordsOf (subAll false u) := by
    rw [hyy, wordsOf_stripWS, wordsOf_collapseAux z.length z le_rfl false,
      hz, wordsOf_punctMap]
  have hVy : ∀ w ∈ wordsOf y, inV w = false := by
    rw [hwords]
    intro w hw
    have := scan_no_V u.length u false le_rfl w
    unfold safeWords at this
    rw [if_neg (by simp)] at this
    exact this hw
  have hlower : y.map lowerChar = y := map_self_of_mem hyst
  have hsub : subAll false y = y := by
    unfold subAll
    refine subAllF_id_of_good y.length y false le_rfl hych hyst ?_
    intro w hw
    unfold safeWords at hw
    rw [if_neg (by simp)] at hw
    exact hVy w hw
  have hpunct : y.map punctMap = y := by
    refine map_self_of_mem ?_
    intro c hc
    rcases hych c hc with h | h
    · exact punctMap_word h
    · rw [h]; decide
  have hcoll : collapseAux false y = y :=
    (okSp_collapse_id y).1 (okSp_stripWS (collapseAux_okSp z).2)
  have hstrip : stripWS y = y := by
    rw [hyy]
    exact stripWS_idem (collapseAux false z)
  rw [hlower, hsub, hpunct, hcoll, hstrip]

theorem strongNormalize_ne_empty {s : String} (hs : ¬ s = "") :
    strongNormalize s = String.mk (stripWS (collapseAux false
      (List.map punctMap (subAll false (s.data.map lowerChar))))) := by
  unfold strongNormalize
  rw [if_neg hs]

theorem strongNormalize_idem (s : String) :
    strongNormalize (strongNormalize s) = strongNormalize s := by
  by_cases hs : s = ""
  · subst hs
    rfl
  · rw [strongNormalize_ne_empty hs]
    by_cases hyz : String.mk (stripWS (collapseAux false
        (List.map punctMap (subAll false (s.data.map lowerChar))))) = ""
    · rw [hyz]
      rfl
    · rw [strongNormalize_ne_empty hyz]
      show String.mk (stripWS (collapseAux false (List.map punctMap
        (subAll false ((stripWS (collapseAux false (List.map punctMap
          (subAll false (s.data.map lowerChar))))).map lowerChar))))) = _
      rw [normList_fixed s.data]

/-- **C8.** The strong normalizer is idempotent: for every input string,
normalizing twice equals normalizing once — applying lower-casing,
whole-word legal-suffix/state-code deletion, punctuation-to-space
replacement, whitespace collapsing and trimming to an already-normalized
string leaves it unchanged. -/
theorem C8_normalize_idempotent (s : String) :
    strongNormalize (strongNormalize s) = strongNormalize s :=
  strongNormalize_idem s

end ACDP
